import Mathlib

/-!
Verification of the duplicate / burst-sequence detection engine of the
`unfuzz` photo-management backend.

The definitions below are a shallow embedding of
`backend/app/services/duplicate_detector.py` (class `DuplicateDetector`)
and of the exact-hash duplicate grouping inlined in
`backend/app/api/analysis.py` (`detect_duplicates`).

Python records are dictionaries fetched from the record store; every
selected column is present as a key, a SQL NULL appearing as the value
`None`.  We model such fields as `Option` values (`none` = `None`).

The perceptual-hash comparison delegates to the external `imagehash`
package: `hex_to_hash` parses a hex string into a square boolean bit
array (`int(hexstr, 16)` rendered as a zero-padded binary string of
width `hash_size * hash_size`, after asserting that `len(hexstr) * 4`
is a perfect square), and `ImageHash.__sub__` counts differing entries
of two equal-shaped bit arrays, raising `TypeError` on a shape
mismatch.  We embed the parse as `Option` (a raised exception = `none`)
and the bit array as its flattened `List Bool`.
-/

set_option linter.unusedVariables false
set_option maxRecDepth 100000

deriving instance DecidableEq for Except

/-- Python exceptions that the embedded code can surface. -/
inductive PyError where
  | typeError
  | indexError
  deriving DecidableEq, Repr

/-- Value of one hex digit, as accepted by Python's `int(s, 16)`
(both cases).  Underscore separators, surrounding whitespace and signs,
which `int` also tolerates, are not modelled: no code of fixed-width
hash strings uses them. -/
def hexCharVal (c : Char) : Option Nat :=
  if c = '0' then some 0
  else if c = '1' then some 1
  else if c = '2' then some 2
  else if c = '3' then some 3
  else if c = '4' then some 4
  else if c = '5' then some 5
  else if c = '6' then some 6
  else if c = '7' then some 7
  else if c = '8' then some 8
  else if c = '9' then some 9
  else if c = 'a' then some 10
  else if c = 'b' then some 11
  else if c = 'c' then some 12
  else if c = 'd' then some 13
  else if c = 'e' then some 14
  else if c = 'f' then some 15
  else if c = 'A' then some 10
  else if c = 'B' then some 11
  else if c = 'C' then some 12
  else if c = 'D' then some 13
  else if c = 'E' then some 14
  else if c = 'F' then some 15
  else none

/-- Accumulating base-16 parse of a digit list (`int(s, 16)` on a
nonempty all-hex-digit string). -/
def parseHexAux (acc : Nat) : List Char → Option Nat
  | [] => some acc
  | c :: t =>
    match hexCharVal c with
    | some d => parseHexAux (16 * acc + d) t
    | none => none

/-- `int(s, 16)`: fails on the empty string or any non-hex-digit character. -/
def parseHexVal (s : List Char) : Option Nat :=
  match s with
  | [] => none
  | _ => parseHexAux 0 s

/-- The `hash_size` computed by `imagehash.hex_to_hash`:
`int(numpy.sqrt(len(hexstr) * 4))` followed by
`assert hash_size ** 2 == len(hexstr) * 4`.  The composite behaviour is
"the `k` with `k * k = 4 * len`, if one exists"; we compute that `k`
directly (searching up to `4 * len`, which bounds any such `k`). -/
def hashSizeOf (len : Nat) : Option Nat :=
  (List.range (4 * len + 1)).find? (fun k => k * k = 4 * len)

/-- Big-endian binary rendering of `v` zero-padded to `w` bits
(`'{:0>{width}b}'.format(v, width=w)` as a list of bits). -/
def bitsOfWidth : Nat → Nat → List Bool
  | 0, _ => []
  | w + 1, v => decide (v / 2 ^ w % 2 = 1) :: bitsOfWidth w v

/-- `imagehash.hex_to_hash`: parse a hex string into the flattened
boolean bit array of the hash (`none` models a raised exception:
failed `assert` or failed `int(s, 16)`). -/
def hex_to_hash (s : String) : Option (List Bool) :=
  match hashSizeOf s.length with
  | none => none
  | some k =>
    match parseHexVal s.toList with
    | none => none
    | some v => some (bitsOfWidth (k * k) v)

/-- `ImageHash.__sub__` on two equal-shaped bit arrays:
`numpy.count_nonzero(self.hash.flatten() != other.hash.flatten())`. -/
def hammingListDiff (b1 b2 : List Bool) : Nat :=
  (List.zip b1 b2).countP (fun p => p.1 != p.2)

/-- `DuplicateDetector.calculate_similarity`: Hamming distance between
two hex-string hashes.  The source wraps the whole computation in
`try/except` and returns `999` on any error (bad hex, incompatible
shapes); both the `"dhash"` and the `"phash"` branch of the source call
`imagehash.hex_to_hash`, so `hash_type` does not affect the result. -/
def calculate_similarity (hash1 hash2 : String) (hash_type : String) : Nat :=
  match hex_to_hash hash1, hex_to_hash hash2 with
  | some b1, some b2 =>
    if b1.length = b2.length then hammingListDiff b1 b2 else 999
  | _, _ => 999

/-- `calculate_similarity` as invoked on dictionary fields that may be
SQL NULL: passing `None` makes `hex_to_hash` raise (`len(None)`), which
the `except` turns into `999`. -/
def calcSimOpt (h1 h2 : Option String) (hash_type : String) : Nat :=
  match h1, h2 with
  | some s1, some s2 => calculate_similarity s1 s2 hash_type
  | _, _ => 999

/-- The comparison rule of `DuplicateDetector.are_duplicates`, on
already-computed hash strings: with `use_both_hashes` both distances
must be within the threshold, otherwise either one suffices. -/
def are_duplicates_core (dhash1 phash1 dhash2 phash2 : String)
    (use_both_hashes : Bool) (threshold : Nat) : Bool :=
  let dhash_distance := calculate_similarity dhash1 dhash2 "dhash"
  let phash_distance := calculate_similarity phash1 phash2 "phash"
  if use_both_hashes then
    decide (dhash_distance ≤ threshold) && decide (phash_distance ≤ threshold)
  else
    decide (dhash_distance ≤ threshold) || decide (phash_distance ≤ threshold)

/-- Default `similarity_threshold` of `DuplicateDetector.__init__`. -/
def similarity_threshold_default : Nat := 10

/-- The hard-coded "more lenient threshold for bursts" in
`find_burst_sequences`. -/
def burst_visual_threshold : Nat := 30

/-- One record of the `image_data` lists fed to `DuplicateDetector`
(a dictionary with `dhash`, `phash`, `capture_time`, `overall_score`;
the `id` key is never read by the embedded methods and is omitted).
`capture_time` is modelled as seconds (`datetime` arithmetic on whole
seconds); `overall_score` as a natural number. -/
structure ImageData where
  dhash : Option String
  phash : Option String
  capture_time : Option Int
  overall_score : Option Nat
  deriving DecidableEq, Repr, Inhabited

/-- The inner scan of `find_duplicate_groups`: for anchor `img1`, walk
the subsequent `(index, record)` pairs, skipping processed ones, and
merge a record when both hash distances are within the threshold.
Returns the merged indices (in scan order) and the updated `processed`
set. -/
def scanMerge (t : Nat) (img1 : ImageData) :
    List (Nat × ImageData) → List Nat → List Nat × List Nat
  | [], processed => ([], processed)
  | (j, img2) :: rest, processed =>
    if j ∈ processed then scanMerge t img1 rest processed
    else
      let dhash_dist := calcSimOpt img1.dhash img2.dhash "dhash"
      let phash_dist := calcSimOpt img1.phash img2.phash "phash"
      if dhash_dist ≤ t ∧ phash_dist ≤ t then
        let r := scanMerge t img1 rest (processed ++ [j])
        (j :: r.1, r.2)
      else scanMerge t img1 rest processed

/-- The outer loop of `find_duplicate_groups`: each unprocessed record
anchors a new group; the group is emitted only when it has more than
one member. -/
def groupLoop (t : Nat) :
    List (Nat × ImageData) → List Nat → List (List Nat)
  | [], _ => []
  | (i, img1) :: rest, processed =>
    if i ∈ processed then groupLoop t rest processed
    else
      let r := scanMerge t img1 rest (processed ++ [i])
      let group := i :: r.1
      if group.length > 1 then group :: groupLoop t rest r.2
      else groupLoop t rest r.2

/-- Python `enumerate(l, start=n)`. -/
def enumFromIdx {α : Type} : Nat → List α → List (Nat × α)
  | _, [] => []
  | n, a :: t => (n, a) :: enumFromIdx (n + 1) t

/-- `DuplicateDetector.find_duplicate_groups`. -/
def find_duplicate_groups (image_data : List ImageData) (t : Nat) :
    List (List Nat) :=
  groupLoop t (enumFromIdx 0 image_data) []

/-- Stable insertion of `a` into an already sorted list: `a` is placed
after every element `b` with `le b a` (so equal keys keep their
original relative order, as Python's stable `sorted` does). -/
def insertStable {α : Type} (le : α → α → Bool) (a : α) : List α → List α
  | [] => [a]
  | b :: t => if le b a then b :: insertStable le a t else a :: b :: t

/-- Stable ascending sort (models Python's `sorted(l, key=...)`:
for a total preorder a stable ascending sort is unique, so insertion
sort and timsort agree). -/
def sortBy {α : Type} (le : α → α → Bool) (l : List α) : List α :=
  l.foldl (fun acc a => insertStable le a acc) []

/-- The sort key comparison of `find_burst_sequences`
(`key=lambda x: x[1].get('capture_time', '')`), on records whose
capture time is present. -/
def burstLe (p q : Nat × ImageData) : Bool :=
  decide (p.2.capture_time.getD 0 ≤ q.2.capture_time.getD 0)

/-- The walk of `find_burst_sequences` over the time-sorted
`(index, record)` pairs.  `current` is `current_sequence`; a flush
emits it only when it has more than one member.  `prev_idx` is
`current_sequence[-1]` and the previous record is re-fetched as
`image_data[prev_idx]`, exactly as in the source (the `getD` defaults
are unreachable: `current` is nonempty in that branch and holds valid
indices of records with a present capture time). -/
def burstWalk (image_data : List ImageData) (time_threshold_seconds : Int) :
    List (Nat × ImageData) → List (List Nat) → List Nat → List (List Nat)
  | [], sequences, current =>
    if current.length > 1 then sequences ++ [current] else sequences
  | (idx, img) :: rest, sequences, current =>
    if img.capture_time = none then
      burstWalk image_data time_threshold_seconds rest sequences current
    else if current.isEmpty then
      burstWalk image_data time_threshold_seconds rest sequences [idx]
    else
      let prev_idx := current.getLastD 0
      let prev_img := image_data.getD prev_idx default
      let time_diff :=
        img.capture_time.getD 0 - prev_img.capture_time.getD 0
      if time_diff ≤ time_threshold_seconds then
        let dhash_dist := calcSimOpt img.dhash prev_img.dhash "dhash"
        if dhash_dist ≤ burst_visual_threshold then
          burstWalk image_data time_threshold_seconds rest sequences
            (current ++ [idx])
        else
          burstWalk image_data time_threshold_seconds rest
            (if current.length > 1 then sequences ++ [current] else sequences)
            [idx]
      else
        burstWalk image_data time_threshold_seconds rest
          (if current.length > 1 then sequences ++ [current] else sequences)
          [idx]

/-- `DuplicateDetector.find_burst_sequences`.  The source first sorts
`enumerate(image_data)` by `x[1].get('capture_time', '')`.  Records are
store rows, so a missing capture time is the value `None`; with two or
more records Python's sort compares every key at least once, and any
comparison involving `None` (against `None` or a `datetime`) raises
`TypeError`.  With at most one record no comparison happens, and with
all capture times present the keys are all `datetime` and the sort is
the stable ascending sort. -/
def find_burst_sequences (image_data : List ImageData)
    (time_threshold_seconds : Int) : Except PyError (List (List Nat)) :=
  if 2 ≤ image_data.length ∧ ∃ r ∈ image_data, r.capture_time = none then
    .error .typeError
  else
    let sorted_data := sortBy burstLe (enumFromIdx 0 image_data)
    .ok (burstWalk image_data time_threshold_seconds sorted_data [] [])

/-- `image_data[idx].get('overall_score', 0)` where `idx` must be a
valid index (store rows always carry the `overall_score` key, possibly
NULL, so the `.get` default never fires and the read yields the stored
value, `None` included). -/
def pyGetScore (image_data : List ImageData) (idx : Nat) :
    Except PyError (Option Nat) :=
  match image_data.get? idx with
  | none => .error .indexError
  | some img => .ok img.overall_score

/-- Python `score > best_score` on values that are `int` or `None`:
any comparison involving `None` raises `TypeError`. -/
def pyGtOpt (score best_score : Option Nat) : Except PyError Bool :=
  match score, best_score with
  | some a, some b => .ok (decide (b < a))
  | _, _ => .error .typeError

/-- The loop of `select_best_from_group` over `group_indices[1:]`. -/
def selectBestLoop (image_data : List ImageData) :
    List Nat → Nat → Option Nat → Except PyError Nat
  | [], best_idx, _ => .ok best_idx
  | idx :: rest, best_idx, best_score =>
    match pyGetScore image_data idx with
    | .error e => .error e
    | .ok score =>
      match pyGtOpt score best_score with
      | .error e => .error e
      | .ok b =>
        if b then selectBestLoop image_data rest idx score
        else selectBestLoop image_data rest best_idx best_score

/-- `DuplicateDetector.select_best_from_group`: running maximum of
`overall_score` over the group, the first occurrence winning ties
(`score > best_score` is strict).  `group_indices[0]` on an empty
group raises `IndexError`. -/
def select_best_from_group (image_data : List ImageData)
    (group_indices : List Nat) : Except PyError Nat :=
  match group_indices with
  | [] => .error .indexError
  | g0 :: rest =>
    match pyGetScore image_data g0 with
    | .error e => .error e
    | .ok best_score => selectBestLoop image_data rest g0 best_score

/-- One row of the `images` table as selected by
`detect_duplicates` in `backend/app/api/analysis.py`
(`id, filename, phash, dhash, overall_score, capture_time`). -/
structure DBImage where
  id : Nat
  filename : String
  phash : Option String
  dhash : Option String
  overall_score : Option Nat
  capture_time : Option Int
  deriving DecidableEq, Repr, Inhabited

/-- The SQL filters `.not_.is_("phash", "null").not_.is_("dhash", "null")`
of `detect_duplicates`: only rows with both hashes present reach the
grouping. -/
def eligible_images (l : List DBImage) : List DBImage :=
  l.filter (fun r => r.phash.isSome && r.dhash.isSome)

/-- `hash_key = f"{img['phash']}|{img['dhash']}"`. -/
def hash_key (img : DBImage) : String :=
  img.phash.getD "" ++ "|" ++ img.dhash.getD ""

/-- Add `img` under key `k` to the insertion-ordered bucket map
(`hash_groups[hash_key].append(img)`, creating the bucket first if
needed, as the source does). -/
def insertKey (m : List (String × List DBImage)) (k : String)
    (img : DBImage) : List (String × List DBImage) :=
  match m with
  | [] => [(k, [img])]
  | (k0, b) :: rest =>
    if k0 = k then (k0, b ++ [img]) :: rest
    else (k0, b) :: insertKey rest k img

/-- The `hash_groups` dictionary of `detect_duplicates`, keyed by
`hash_key` in insertion order. -/
def hash_groups (l : List DBImage) : List (String × List DBImage) :=
  l.foldl (fun m img => insertKey m (hash_key img) img) []

/-- The emitted duplicate groups of `detect_duplicates`: buckets of the
eligible rows, skipping those with at most one member
(`if len(group_images) <= 1: continue`). -/
def exact_duplicate_groups (l : List DBImage) : List (List DBImage) :=
  ((hash_groups (eligible_images l)).map Prod.snd).filter
    (fun g => g.length > 1)

/-- The sort key `(-(x.get('overall_score') or 0))` of the
representative selection in `detect_duplicates` (`None or 0` is `0`). -/
def score_key (img : DBImage) : Int :=
  -(img.overall_score.getD 0 : Int)

/-- Python's ascending comparison of the sort keys
`(-(score or 0), filename)` (lexicographic tuple order; strings compare
pointwise by code point, as Lean's `String` order does). -/
def bestLe (a b : DBImage) : Bool :=
  if score_key a = score_key b then decide (a.filename ≤ b.filename)
  else decide (score_key a < score_key b)

/-- `sorted_images` of `detect_duplicates`: the group sorted by
`(-(overall_score or 0), filename)` ascending. -/
def sorted_images (g : List DBImage) : List DBImage :=
  sortBy bestLe g

/-- `best_image = sorted_images[0]` (groups reaching this point are
nonempty). -/
def best_image (g : List DBImage) : Option DBImage :=
  (sorted_images g).head?

/-- The walk of the specification's burst detector (§4.4), carrying the
`currentSequence` buffer as the records themselves: a subsequent record
is appended when `gap ≤ timeWindowSeconds` and the primary-hash
distance to the previous buffer member is within the visual threshold;
otherwise the buffer is flushed (emitted only with ≥ 2 members) and
reseeded.  The distance primitive is the engine's hash comparison. -/
def specBurstWalk (timeWindowSeconds : Int) :
    List (Nat × ImageData) → List (List Nat) → List (Nat × ImageData) →
    List (List Nat)
  | [], sequences, current =>
    if 2 ≤ current.length then sequences ++ [current.map Prod.fst]
    else sequences
  | (idx, r) :: rest, sequences, current =>
    match current.getLast? with
    | none => specBurstWalk timeWindowSeconds rest sequences [(idx, r)]
    | some prev =>
      let gap := r.capture_time.getD 0 - prev.2.capture_time.getD 0
      let visualDistance := calcSimOpt r.dhash prev.2.dhash "dhash"
      if gap ≤ timeWindowSeconds ∧ visualDistance ≤ burst_visual_threshold
      then
        specBurstWalk timeWindowSeconds rest sequences (current ++ [(idx, r)])
      else
        specBurstWalk timeWindowSeconds rest
          (if 2 ≤ current.length then sequences ++ [current.map Prod.fst]
           else sequences)
          [(idx, r)]

/-- The specification's `findBurstSequences` (§4.4): discard records
with no capture time, sort the rest ascending by capture time, then
walk them with `specBurstWalk`.  Sequences are reported as record
indices. -/
def specFindBurstSequences (records : List ImageData)
    (timeWindowSeconds : Int) : List (List Nat) :=
  let eligible :=
    (enumFromIdx 0 records).filter (fun p => p.2.capture_time.isSome)
  specBurstWalk timeWindowSeconds (sortBy burstLe eligible) [] []

/-- The sixteen digits of a canonical (lowercase) hex rendering. -/
def canonicalHexDigits : List Char :=
  ['0', '1', '2', '3', '4', '5', '6', '7'] ++
    ['8', '9', 'a', 'b', 'c', 'd', 'e', 'f']

/-- A canonical fingerprint code as produced by the fingerprinting
step (`str(imagehash.dhash(img))`): a nonempty fixed-width lowercase
hex string whose bit width `4 * length` is a perfect square (the
bound on `k` is redundant and only keeps the predicate decidable). -/
def validCode (s : String) : Prop :=
  s.length ≠ 0 ∧
  (∀ c ∈ s.toList, c ∈ canonicalHexDigits) ∧
  ∃ k ≤ 4 * s.length, k * k = 4 * s.length

instance (s : String) : Decidable (validCode s) := by
  unfold validCode
  infer_instance

/-! ### Lemmas about the fingerprint codec -/

theorem hexCharVal_of_canonical {c : Char} (h : c ∈ canonicalHexDigits) :
    ∃ d, hexCharVal c = some d ∧ d < 16 ∧ canonicalHexDigits.getD d 'x' = c := by
  simp only [canonicalHexDigits, List.mem_append, List.mem_cons,
    List.not_mem_nil, or_false] at h
  rcases h with h | h <;>
    rcases h with h | h | h | h | h | h | h | h <;>
      subst h <;> exact ⟨_, rfl, by decide, by decide⟩

theorem hexCharVal_inj {c1 c2 : Char} (h1 : c1 ∈ canonicalHexDigits)
    (h2 : c2 ∈ canonicalHexDigits) (h : hexCharVal c1 = hexCharVal c2) :
    c1 = c2 := by
  obtain ⟨d1, hv1, _, hr1⟩ := hexCharVal_of_canonical h1
  obtain ⟨d2, hv2, _, hr2⟩ := hexCharVal_of_canonical h2
  rw [hv1, hv2] at h
  obtain rfl : d1 = d2 := by injection h
  rw [← hr1, ← hr2]


theorem parseHexAux_shift (l : List Char) :
    ∀ acc, parseHexAux acc l =
      (parseHexAux 0 l).map (fun v => acc * 16 ^ l.length + v) := by
  induction l with
  | nil => intro acc; simp [parseHexAux]
  | cons c t ih =>
    intro acc
    cases hv : hexCharVal c with
    | none => simp [parseHexAux, hv]
    | some d =>
      simp only [parseHexAux, hv]
      rw [ih (16 * acc + d), ih (16 * 0 + d)]
      cases ht : parseHexAux 0 t with
      | none => simp
      | some v =>
        simp only [Option.map_some', List.length_cons]
        congr 1
        ring

theorem parseHexAux_lt (l : List Char) (hc : ∀ c ∈ l, c ∈ canonicalHexDigits) :
    ∀ v, parseHexAux 0 l = some v → v < 16 ^ l.length := by
  induction l with
  | nil =>
    intro v hv
    simp only [parseHexAux, Option.some_inj] at hv
    subst hv
    simp
  | cons c t ih =>
    intro v hv
    obtain ⟨d, hd, hdlt, -⟩ := hexCharVal_of_canonical (hc c (by simp))
    simp only [parseHexAux, hd] at hv
    rw [parseHexAux_shift] at hv
    cases ht : parseHexAux 0 t with
    | none => rw [ht] at hv; simp at hv
    | some w =>
      rw [ht] at hv
      simp at hv
      have hw := ih (fun c hcm => hc c (List.mem_cons_of_mem _ hcm)) w ht
      have hE : (0:Nat) < 16 ^ t.length := pow_pos (by omega) _
      have hdE : d * 16 ^ t.length ≤ 15 * 16 ^ t.length :=
        Nat.mul_le_mul_right _ (by omega)
      rw [List.length_cons, pow_succ]
      linarith

theorem parseHexAux_inj (l1 : List Char) :
    ∀ l2 : List Char, l1.length = l2.length →
      (∀ c ∈ l1, c ∈ canonicalHexDigits) →
      (∀ c ∈ l2, c ∈ canonicalHexDigits) →
      ∀ v, parseHexAux 0 l1 = some v → parseHexAux 0 l2 = some v →
      l1 = l2 := by
  induction l1 with
  | nil =>
    intro l2 hlen _ _ v _ _
    cases l2 with
    | nil => rfl
    | cons c t => simp at hlen
  | cons c1 t1 ih =>
    intro l2 hlen hc1 hc2 v hv1 hv2
    cases l2 with
    | nil => simp at hlen
    | cons c2 t2 =>
      obtain ⟨d1, hd1, hd1lt, -⟩ := hexCharVal_of_canonical (hc1 c1 (by simp))
      obtain ⟨d2, hd2, hd2lt, -⟩ := hexCharVal_of_canonical (hc2 c2 (by simp))
      simp only [parseHexAux, hd1] at hv1
      simp only [parseHexAux, hd2] at hv2
      rw [parseHexAux_shift] at hv1
      rw [parseHexAux_shift] at hv2
      cases ht1 : parseHexAux 0 t1 with
      | none => rw [ht1] at hv1; simp at hv1
      | some w1 =>
        cases ht2 : parseHexAux 0 t2 with
        | none => rw [ht2] at hv2; simp at hv2
        | some w2 =>
          rw [ht1] at hv1
          rw [ht2] at hv2
          simp at hv1 hv2
          have hlen' : t1.length = t2.length := by simpa using hlen
          have hw1 := parseHexAux_lt t1
            (fun c h => hc1 c (List.mem_cons_of_mem _ h)) w1 ht1
          have hw2 := parseHexAux_lt t2
            (fun c h => hc2 c (List.mem_cons_of_mem _ h)) w2 ht2
          rw [hlen'] at hv1 hw1
          have hE : (0:Nat) < 16 ^ t2.length := pow_pos (by omega) _
          have hd : d1 = d2 := by
            rcases Nat.lt_trichotomy d1 d2 with h | h | h
            · exfalso
              have h1 : (d1 + 1) * 16 ^ t2.length ≤ d2 * 16 ^ t2.length :=
                Nat.mul_le_mul_right _ (by omega)
              rw [Nat.add_mul, Nat.one_mul] at h1
              linarith
            · exact h
            · exfalso
              have h1 : (d2 + 1) * 16 ^ t2.length ≤ d1 * 16 ^ t2.length :=
                Nat.mul_le_mul_right _ (by omega)
              rw [Nat.add_mul, Nat.one_mul] at h1
              linarith
          subst hd
          have hw : w1 = w2 := by linarith
          subst hw
          have hteq : t1 = t2 :=
            ih t2 hlen' (fun c h => hc1 c (List.mem_cons_of_mem _ h))
              (fun c h => hc2 c (List.mem_cons_of_mem _ h)) w1 ht1 ht2
          have hceq : c1 = c2 :=
            hexCharVal_inj (hc1 c1 (by simp)) (hc2 c2 (by simp))
              (by rw [hd1, hd2])
          rw [hceq, hteq]

theorem bitsOfWidth_length (w : Nat) : ∀ v, (bitsOfWidth w v).length = w := by
  induction w with
  | zero => intro v; rfl
  | succ w ih => intro v; simp [bitsOfWidth, ih]

theorem mod_two_pow_succ (v w : Nat) :
    v % 2 ^ (w + 1) = v % 2 ^ w + 2 ^ w * (v / 2 ^ w % 2) := by
  conv_lhs => rw [pow_succ, Nat.mod_mul]

theorem bitsOfWidth_inj (w : Nat) :
    ∀ v1 v2, bitsOfWidth w v1 = bitsOfWidth w v2 →
      v1 % 2 ^ w = v2 % 2 ^ w := by
  induction w with
  | zero => intro v1 v2 _; simp [Nat.mod_one]
  | succ w ih =>
    intro v1 v2 h
    simp only [bitsOfWidth, List.cons.injEq] at h
    obtain ⟨hbit, htail⟩ := h
    have h1 := ih v1 v2 htail
    have hb : v1 / 2 ^ w % 2 = v2 / 2 ^ w % 2 := by
      have e1 : v1 / 2 ^ w % 2 = 0 ∨ v1 / 2 ^ w % 2 = 1 := by omega
      have e2 : v2 / 2 ^ w % 2 = 0 ∨ v2 / 2 ^ w % 2 = 1 := by omega
      rcases e1 with e1 | e1 <;> rcases e2 with e2 | e2 <;>
        simp [e1, e2] at hbit ⊢
    rw [mod_two_pow_succ, mod_two_pow_succ, h1, hb]

theorem hammingListDiff_symm (b1 : List Bool) :
    ∀ b2, hammingListDiff b1 b2 = hammingListDiff b2 b1 := by
  induction b1 with
  | nil => intro b2; cases b2 <;> rfl
  | cons x t ih =>
    intro b2
    cases b2 with
    | nil => rfl
    | cons y s =>
      simp only [hammingListDiff, List.zip_cons_cons, List.countP_cons] at ih ⊢
      rw [ih s]
      congr 1
      cases x <;> cases y <;> rfl

theorem hammingListDiff_self (b : List Bool) : hammingListDiff b b = 0 := by
  induction b with
  | nil => rfl
  | cons x t ih =>
    simp only [hammingListDiff, List.zip_cons_cons, List.countP_cons] at ih ⊢
    simp [ih]

theorem hammingListDiff_eq_zero_iff (b1 : List Bool) :
    ∀ b2, b1.length = b2.length →
      (hammingListDiff b1 b2 = 0 ↔ b1 = b2) := by
  induction b1 with
  | nil =>
    intro b2 hlen
    cases b2 with
    | nil => simp [hammingListDiff]
    | cons y s => simp at hlen
  | cons x t ih =>
    intro b2 hlen
    cases b2 with
    | nil => simp at hlen
    | cons y s =>
      have hlen' : t.length = s.length := by simpa using hlen
      constructor
      · intro h
        simp only [hammingListDiff, List.zip_cons_cons, List.countP_cons] at h
        by_cases hxy : x = y
        · subst hxy
          have ht : hammingListDiff t s = 0 := by
            simp only [hammingListDiff]
            simpa using h
          rw [(ih s hlen').mp ht]
        · exfalso
          have hb : (x != y) = true := by simpa using hxy
          rw [hb] at h
          simp at h
      · intro h
        rw [h]
        exact hammingListDiff_self _

theorem hammingListDiff_triangle (a : List Bool) :
    ∀ b c : List Bool, a.length = b.length → b.length = c.length →
      hammingListDiff a c ≤ hammingListDiff a b + hammingListDiff b c := by
  induction a with
  | nil => intro b c _ _; simp [hammingListDiff]
  | cons x t ih =>
    intro b c hab hbc
    cases b with
    | nil => simp at hab
    | cons y s =>
      cases c with
      | nil => simp at hbc
      | cons z u =>
        simp only [hammingListDiff, List.zip_cons_cons, List.countP_cons]
        have h1 := ih s u (by simpa using hab) (by simpa using hbc)
        have h2 : (if (x != z) = true then 1 else 0) ≤
            (if (x != y) = true then 1 else 0) +
            ((if (y != z) = true then 1 else 0) : Nat) := by
          cases x <;> cases y <;> cases z <;> simp
        simp only [hammingListDiff] at h1
        omega

theorem hashSizeOf_eq {len k : Nat} (h : k * k = 4 * len) :
    hashSizeOf len = some k := by
  unfold hashSizeOf
  have hk4 : k ≤ 4 * len := by
    rcases Nat.eq_zero_or_pos k with hk | hk
    · omega
    · calc k = k * 1 := by omega
        _ ≤ k * k := Nat.mul_le_mul_left _ hk
        _ = 4 * len := h
  cases hfind : (List.range (4 * len + 1)).find? (fun k' => k' * k' = 4 * len)
    with
  | none =>
    exfalso
    have hnone := List.find?_eq_none.mp hfind k (List.mem_range.mpr (by omega))
    simp [h] at hnone
  | some k0 =>
    have hp := List.find?_some hfind
    simp only [decide_eq_true_eq] at hp
    have : k0 = k := Nat.mul_self_inj.mp (by rw [hp, h])
    rw [this]

theorem parseHexAux_some (l : List Char)
    (hc : ∀ c ∈ l, c ∈ canonicalHexDigits) :
    ∀ acc, ∃ v, parseHexAux acc l = some v := by
  induction l with
  | nil => intro acc; exact ⟨acc, rfl⟩
  | cons c t ih =>
    intro acc
    obtain ⟨d, hd, -, -⟩ := hexCharVal_of_canonical (hc c (by simp))
    obtain ⟨v, hv⟩ := ih (fun c h => hc c (List.mem_cons_of_mem _ h))
      (16 * acc + d)
    exact ⟨v, by simp [parseHexAux, hd, hv]⟩

theorem parseHexVal_eq {l : List Char} (h : l ≠ []) :
    parseHexVal l = parseHexAux 0 l := by
  cases l with
  | nil => exact absurd rfl h
  | cons c t => rfl

theorem string_toList_length (s : String) : s.toList.length = s.length := rfl

/-- On a valid code, `hex_to_hash` succeeds with a bit array of length
`k * k = 4 * s.length`, parsed from a value below `2 ^ (k * k)`. -/
theorem hex_to_hash_valid {s : String} (h : validCode s) :
    ∃ k v, hashSizeOf s.length = some k ∧ k * k = 4 * s.length ∧
      parseHexVal s.toList = some v ∧ v < 2 ^ (k * k) ∧
      hex_to_hash s = some (bitsOfWidth (k * k) v) := by
  obtain ⟨hlen, hchars, k, hk4, hk⟩ := h
  have hsz := hashSizeOf_eq hk
  have hne : s.toList ≠ [] := by
    intro hnil
    apply hlen
    rw [← string_toList_length, hnil]
    rfl
  obtain ⟨v, hv⟩ := parseHexAux_some s.toList hchars 0
  have hvlt : v < 2 ^ (k * k) := by
    have := parseHexAux_lt s.toList hchars v hv
    have h16 : (16:Nat) ^ s.toList.length = 2 ^ (4 * s.length) := by
      rw [string_toList_length]
      rw [show (16:Nat) = 2 ^ 4 from rfl, ← pow_mul]
    rw [h16] at this
    rw [hk]
    exact this
  refine ⟨k, v, hsz, hk, ?_, hvlt, ?_⟩
  · rw [parseHexVal_eq hne, hv]
  · unfold hex_to_hash
    rw [hsz, parseHexVal_eq hne, hv]

theorem calculate_similarity_symm (s1 s2 ty : String) :
    calculate_similarity s1 s2 ty = calculate_similarity s2 s1 ty := by
  unfold calculate_similarity
  cases h1 : hex_to_hash s1 with
  | none => cases hex_to_hash s2 <;> rfl
  | some b1 =>
    cases h2 : hex_to_hash s2 with
    | none => rfl
    | some b2 =>
      dsimp only
      by_cases hl : b1.length = b2.length
      · rw [if_pos hl, if_pos hl.symm, hammingListDiff_symm]
      · rw [if_neg hl, if_neg (fun hx => hl hx.symm)]

theorem calculate_similarity_eq_zero_iff {s1 s2 : String} (ty : String)
    (h1 : validCode s1) (h2 : validCode s2) (hlen : s1.length = s2.length) :
    (calculate_similarity s1 s2 ty = 0 ↔ s1 = s2) := by
  obtain ⟨k1, v1, hsz1, hk1, hp1, hb1, hh1⟩ := hex_to_hash_valid h1
  obtain ⟨k2, v2, hsz2, hk2, hp2, hb2, hh2⟩ := hex_to_hash_valid h2
  have hkk : k1 = k2 := Nat.mul_self_inj.mp (by rw [hk1, hk2, hlen])
  subst hkk
  unfold calculate_similarity
  rw [hh1, hh2]
  dsimp only
  rw [if_pos (by rw [bitsOfWidth_length, bitsOfWidth_length])]
  rw [hammingListDiff_eq_zero_iff _ _
    (by rw [bitsOfWidth_length, bitsOfWidth_length])]
  constructor
  · intro hbits
    have hv : v1 = v2 := by
      have := bitsOfWidth_inj _ _ _ hbits
      rw [Nat.mod_eq_of_lt hb1, Nat.mod_eq_of_lt hb2] at this
      exact this
    have hlists : s1.toList = s2.toList := by
      obtain ⟨hlen1, hchars1, -⟩ := h1
      obtain ⟨hlen2, hchars2, -⟩ := h2
      have hne1 : s1.toList ≠ [] := by
        intro hnil; apply hlen1; rw [← string_toList_length, hnil]; rfl
      have hne2 : s2.toList ≠ [] := by
        intro hnil; apply hlen2; rw [← string_toList_length, hnil]; rfl
      rw [parseHexVal_eq hne1] at hp1
      rw [parseHexVal_eq hne2] at hp2
      exact parseHexAux_inj s1.toList s2.toList
        (by rw [string_toList_length, string_toList_length, hlen])
        hchars1 hchars2 v1 hp1 (by rw [hp2, hv])
    cases s1 with
    | mk d1 =>
      cases s2 with
      | mk d2 =>
        have : d1 = d2 := hlists
        rw [this]
  · intro hs
    subst hs
    have : v1 = v2 := by rw [hp1] at hp2; injection hp2
    rw [this]

theorem calculate_similarity_999_of_parse_fail {s1 s2 : String} (ty : String)
    (h : hex_to_hash s1 = none ∨ hex_to_hash s2 = none) :
    calculate_similarity s1 s2 ty = 999 := by
  unfold calculate_similarity
  rcases h with h | h
  · rw [h]
  · rw [h]
    cases hex_to_hash s1 <;> rfl

theorem calculate_similarity_999_of_length_ne {s1 s2 : String} (ty : String)
    (h1 : validCode s1) (h2 : validCode s2) (hlen : s1.length ≠ s2.length) :
    calculate_similarity s1 s2 ty = 999 := by
  obtain ⟨k1, v1, hsz1, hk1, hp1, hb1, hh1⟩ := hex_to_hash_valid h1
  obtain ⟨k2, v2, hsz2, hk2, hp2, hb2, hh2⟩ := hex_to_hash_valid h2
  unfold calculate_similarity
  rw [hh1, hh2]
  dsimp only
  rw [if_neg]
  rw [bitsOfWidth_length, bitsOfWidth_length]
  intro hkk
  exact hlen (by omega)

/-- If a computed similarity is below `999`, both hashes parsed into
bit arrays of equal length and the similarity is their Hamming
distance. -/
theorem sim_lt_comparable {s1 s2 ty : String} {t : Nat}
    (hle : calculate_similarity s1 s2 ty ≤ t) (ht : t < 999) :
    ∃ b1 b2, hex_to_hash s1 = some b1 ∧ hex_to_hash s2 = some b2 ∧
      b1.length = b2.length ∧
      calculate_similarity s1 s2 ty = hammingListDiff b1 b2 := by
  cases hh1 : hex_to_hash s1 with
  | none =>
    rw [calculate_similarity_999_of_parse_fail ty (Or.inl hh1)] at hle
    omega
  | some b1 =>
    cases hh2 : hex_to_hash s2 with
    | none =>
      rw [calculate_similarity_999_of_parse_fail ty (Or.inr hh2)] at hle
      omega
    | some b2 =>
      by_cases hl : b1.length = b2.length
      · refine ⟨b1, b2, rfl, rfl, hl, ?_⟩
        unfold calculate_similarity
        rw [hh1, hh2]
        dsimp only
        rw [if_pos hl]
      · exfalso
        have h999 : calculate_similarity s1 s2 ty = 999 := by
          unfold calculate_similarity
          rw [hh1, hh2]
          dsimp only
          rw [if_neg hl]
        omega

/-! ### Comparability of optional hash fields -/

/-- Two optional hash fields whose comparison is a genuine Hamming
distance rather than an error: both present and parsing into bit
arrays of equal length. -/
def hashComparable (h1 h2 : Option String) : Prop :=
  ∃ s1 s2 b1 b2, h1 = some s1 ∧ h2 = some s2 ∧
    hex_to_hash s1 = some b1 ∧ hex_to_hash s2 = some b2 ∧
    b1.length = b2.length

theorem hashComparable_symm {h1 h2 : Option String}
    (h : hashComparable h1 h2) : hashComparable h2 h1 := by
  obtain ⟨s1, s2, b1, b2, e1, e2, p1, p2, hl⟩ := h
  exact ⟨s2, s1, b2, b1, e2, e1, p2, p1, hl.symm⟩

theorem hashComparable_trans {h1 h2 h3 : Option String}
    (a : hashComparable h1 h2) (b : hashComparable h2 h3) :
    hashComparable h1 h3 := by
  obtain ⟨s1, s2, b1, b2, e1, e2, p1, p2, hl⟩ := a
  obtain ⟨s2', s3, b2', b3, e2', e3, p2', p3, hl'⟩ := b
  rw [e2] at e2'
  obtain rfl : s2 = s2' := by injection e2'
  rw [p2] at p2'
  obtain rfl : b2 = b2' := by injection p2'
  exact ⟨s1, s3, b1, b3, e1, e3, p1, p3, hl.trans hl'⟩

theorem calcSimOpt_lt_comparable {h1 h2 : Option String} {ty : String}
    {t : Nat} (hle : calcSimOpt h1 h2 ty ≤ t) (ht : t < 999) :
    hashComparable h1 h2 := by
  cases h1 with
  | none => simp [calcSimOpt] at hle; omega
  | some s1 =>
    cases h2 with
    | none => simp [calcSimOpt] at hle; omega
    | some s2 =>
      simp only [calcSimOpt] at hle
      obtain ⟨b1, b2, p1, p2, hl, -⟩ := sim_lt_comparable hle ht
      exact ⟨s1, s2, b1, b2, rfl, rfl, p1, p2, hl⟩

/-! ### Lemmas about the near-duplicate clusterer -/

theorem enumFromIdx_mem_getD {α : Type} [Inhabited α] (l : List α) :
    ∀ n i a, (i, a) ∈ enumFromIdx n l → n ≤ i ∧ l.getD (i - n) default = a := by
  induction l with
  | nil => intro n i a h; simp [enumFromIdx] at h
  | cons x t ih =>
    intro n i a h
    simp only [enumFromIdx, List.mem_cons] at h
    rcases h with h | h
    · obtain ⟨rfl, rfl⟩ := Prod.mk.injEq .. ▸ h
      injection h with h1 h2
      simp
    · obtain ⟨hle, hget⟩ := ih (n + 1) i a h
      refine ⟨by omega, ?_⟩
      have : i - n = (i - (n + 1)) + 1 := by omega
      rw [this]
      simpa using hget

theorem enumFromIdx_fst_ge {α : Type} (l : List α) :
    ∀ n i a, (i, a) ∈ enumFromIdx n l → n ≤ i := by
  induction l with
  | nil => intro n i a h; simp [enumFromIdx] at h
  | cons x t ih =>
    intro n i a h
    simp only [enumFromIdx, List.mem_cons] at h
    rcases h with h | h
    · injection h with h1 h2
      omega
    · have := ih (n + 1) i a h
      omega

theorem enumFromIdx_fst_nodup {α : Type} (l : List α) :
    ∀ n, ((enumFromIdx n l).map Prod.fst).Nodup := by
  induction l with
  | nil => intro n; simp [enumFromIdx]
  | cons x t ih =>
    intro n
    simp only [enumFromIdx, List.map_cons, List.nodup_cons]
    refine ⟨?_, ih (n + 1)⟩
    intro hmem
    obtain ⟨⟨i, a⟩, hpa, hfst⟩ := List.mem_map.mp hmem
    have := enumFromIdx_fst_ge t (n + 1) i a hpa
    simp at hfst
    omega

/-- The merge test of the inner scan, as a predicate on an
`(index, record)` candidate: not yet processed, and within the
threshold under both hash families. -/
def mergeCond (t : Nat) (img1 : ImageData) (processed : List Nat)
    (p : Nat × ImageData) : Bool :=
  decide (p.1 ∉ processed) &&
  decide (calcSimOpt img1.dhash p.2.dhash "dhash" ≤ t) &&
  decide (calcSimOpt img1.phash p.2.phash "phash" ≤ t)

theorem scanMerge_eq_filter (t : Nat) (img1 : ImageData) :
    ∀ (js : List (Nat × ImageData)) (processed : List Nat),
      (js.map Prod.fst).Nodup →
      (scanMerge t img1 js processed).1 =
        (js.filter (mergeCond t img1 processed)).map Prod.fst := by
  intro js
  induction js with
  | nil => intro processed _; rfl
  | cons p rest ih =>
    intro processed hnd
    obtain ⟨j, img2⟩ := p
    simp only [List.map_cons, List.nodup_cons] at hnd
    obtain ⟨hj_not, hnd'⟩ := hnd
    by_cases hj : j ∈ processed
    · rw [show scanMerge t img1 ((j, img2) :: rest) processed =
        scanMerge t img1 rest processed by simp [scanMerge, hj]]
      rw [List.filter_cons_of_neg (by simp [mergeCond, hj])]
      exact ih processed hnd'
    · by_cases hc : calcSimOpt img1.dhash img2.dhash "dhash" ≤ t ∧
          calcSimOpt img1.phash img2.phash "phash" ≤ t
      · have hstep : scanMerge t img1 ((j, img2) :: rest) processed =
            (j :: (scanMerge t img1 rest (processed ++ [j])).1,
             (scanMerge t img1 rest (processed ++ [j])).2) := by
          simp [scanMerge, hj, hc]
        rw [hstep]
        have hcond : mergeCond t img1 processed (j, img2) = true := by
          simp [mergeCond, hj, hc.1, hc.2]
        rw [List.filter_cons_of_pos hcond]
        simp only [List.map_cons, List.cons.injEq, true_and]
        rw [ih (processed ++ [j]) hnd']
        congr 1
        apply List.filter_congr
        intro q hq
        have hqj : q.1 ≠ j := by
          intro hqj
          exact hj_not (hqj ▸ List.mem_map_of_mem Prod.fst hq)
        simp only [mergeCond, List.mem_append, List.mem_singleton]
        congr 1
        congr 1
        simp [hqj]
      · have hstep : scanMerge t img1 ((j, img2) :: rest) processed =
            scanMerge t img1 rest processed := by
          simp [scanMerge, hj, hc]
        rw [hstep]
        have hcond : mergeCond t img1 processed (j, img2) = false := by
          simp only [mergeCond]
          rcases Decidable.not_and_iff_or_not.mp hc with h | h <;>
            simp [h]
        rw [List.filter_cons_of_neg (by simp [hcond])]
        exact ih processed hnd'

theorem scanMerge_mem (t : Nat) (img1 : ImageData) :
    ∀ (js : List (Nat × ImageData)) (processed : List Nat) (j : Nat),
      j ∈ (scanMerge t img1 js processed).1 →
      ∃ img2, (j, img2) ∈ js ∧
        calcSimOpt img1.dhash img2.dhash "dhash" ≤ t ∧
        calcSimOpt img1.phash img2.phash "phash" ≤ t := by
  intro js
  induction js with
  | nil => intro processed j h; simp [scanMerge] at h
  | cons p rest ih =>
    intro processed j h
    obtain ⟨j0, img2⟩ := p
    by_cases hj : j0 ∈ processed
    · rw [show scanMerge t img1 ((j0, img2) :: rest) processed =
        scanMerge t img1 rest processed by simp [scanMerge, hj]] at h
      obtain ⟨img', hmem, h1, h2⟩ := ih processed j h
      exact ⟨img', List.mem_cons_of_mem _ hmem, h1, h2⟩
    · by_cases hc : calcSimOpt img1.dhash img2.dhash "dhash" ≤ t ∧
          calcSimOpt img1.phash img2.phash "phash" ≤ t
      · rw [show scanMerge t img1 ((j0, img2) :: rest) processed =
            (j0 :: (scanMerge t img1 rest (processed ++ [j0])).1,
             (scanMerge t img1 rest (processed ++ [j0])).2) by
          simp [scanMerge, hj, hc]] at h
        simp only [List.mem_cons] at h
        rcases h with rfl | h
        · exact ⟨img2, List.mem_cons_self _ _, hc.1, hc.2⟩
        · obtain ⟨img', hmem, h1, h2⟩ := ih (processed ++ [j0]) j h
          exact ⟨img', List.mem_cons_of_mem _ hmem, h1, h2⟩
      · rw [show scanMerge t img1 ((j0, img2) :: rest) processed =
            scanMerge t img1 rest processed by simp [scanMerge, hj, hc]] at h
        obtain ⟨img', hmem, h1, h2⟩ := ih processed j h
        exact ⟨img', List.mem_cons_of_mem _ hmem, h1, h2⟩

theorem groupLoop_mem (t : Nat) :
    ∀ (js : List (Nat × ImageData)) (processed : List Nat)
      (g : List Nat), g ∈ groupLoop t js processed →
      ∃ i img1 merged, (i, img1) ∈ js ∧ g = i :: merged ∧ 1 < g.length ∧
        ∀ j ∈ merged, ∃ img2, (j, img2) ∈ js ∧
          calcSimOpt img1.dhash img2.dhash "dhash" ≤ t ∧
          calcSimOpt img1.phash img2.phash "phash" ≤ t := by
  intro js
  induction js with
  | nil => intro processed g h; simp [groupLoop] at h
  | cons p rest ih =>
    intro processed g h
    obtain ⟨i, img1⟩ := p
    by_cases hi : i ∈ processed
    · rw [show groupLoop t ((i, img1) :: rest) processed =
        groupLoop t rest processed by simp [groupLoop, hi]] at h
      obtain ⟨i', img', merged, hmem, hg, hlen, hall⟩ := ih processed g h
      exact ⟨i', img', merged, List.mem_cons_of_mem _ hmem, hg, hlen,
        fun j hj => by
          obtain ⟨img2, hmem2, h1, h2⟩ := hall j hj
          exact ⟨img2, List.mem_cons_of_mem _ hmem2, h1, h2⟩⟩
    · simp only [groupLoop] at h
      rw [if_neg hi] at h
      by_cases hlen :
          (i :: (scanMerge t img1 rest (processed ++ [i])).1).length > 1
      · rw [if_pos hlen] at h
        simp only [List.mem_cons] at h
        rcases h with rfl | h
        · refine ⟨i, img1, (scanMerge t img1 rest (processed ++ [i])).1,
            List.mem_cons_self _ _, rfl, hlen, ?_⟩
          intro j hj
          obtain ⟨img2, hmem2, h1, h2⟩ :=
            scanMerge_mem t img1 rest (processed ++ [i]) j hj
          exact ⟨img2, List.mem_cons_of_mem _ hmem2, h1, h2⟩
        · obtain ⟨i', img', merged, hmem, hg, hlen', hall⟩ :=
            ih (scanMerge t img1 rest (processed ++ [i])).2 g h
          exact ⟨i', img', merged, List.mem_cons_of_mem _ hmem, hg, hlen',
            fun j hj => by
              obtain ⟨img2, hmem2, h1, h2⟩ := hall j hj
              exact ⟨img2, List.mem_cons_of_mem _ hmem2, h1, h2⟩⟩
      · rw [if_neg hlen] at h
        obtain ⟨i', img', merged, hmem, hg, hlen', hall⟩ :=
          ih (scanMerge t img1 rest (processed ++ [i])).2 g h
        exact ⟨i', img', merged, List.mem_cons_of_mem _ hmem, hg, hlen',
          fun j hj => by
            obtain ⟨img2, hmem2, h1, h2⟩ := hall j hj
            exact ⟨img2, List.mem_cons_of_mem _ hmem2, h1, h2⟩⟩

/-! ### Lemmas about the burst-sequence detector -/

theorem getLast?_cons_ex {α : Type} (cs : List α) :
    ∀ c : α, ∃ p, (c :: cs).getLast? = some p ∧ p ∈ c :: cs := by
  induction cs with
  | nil => intro c; exact ⟨c, by simp, by simp⟩
  | cons c2 cs2 ih =>
    intro c
    obtain ⟨p, hp, hmem⟩ := ih c2
    exact ⟨p, by rw [List.getLast?_cons_cons]; exact hp,
      List.mem_cons_of_mem _ hmem⟩

theorem getLast?_some_mem {α : Type} {l : List α} {p : α}
    (h : l.getLast? = some p) : p ∈ l := by
  cases l with
  | nil => simp at h
  | cons c cs =>
    obtain ⟨q, hq, hmem⟩ := getLast?_cons_ex cs c
    rw [hq] at h
    injection h with h
    rw [← h]
    exact hmem

theorem map_fst_getLastD {α β : Type} [Inhabited α] :
    ∀ (curs : List (α × β)) (p : α × β), curs.getLast? = some p →
      (curs.map Prod.fst).getLastD default = p.1 := by
  intro curs
  induction curs with
  | nil => intro p h; simp at h
  | cons c cs ih =>
    intro p h
    cases cs with
    | nil =>
      simp at h
      rw [← h]
      rfl
    | cons c2 cs2 =>
      rw [List.getLast?_cons_cons] at h
      have := ih p h
      simpa [List.getLastD] using this

theorem insertStable_mem {α : Type} (le : α → α → Bool) (a : α) :
    ∀ (l : List α) (x : α), x ∈ insertStable le a l ↔ x = a ∨ x ∈ l := by
  intro l
  induction l with
  | nil => intro x; simp [insertStable]
  | cons b t ih =>
    intro x
    simp only [insertStable]
    by_cases h : le b a
    · rw [if_pos h]
      simp only [List.mem_cons, ih x]
      tauto
    · rw [if_neg h]
      simp only [List.mem_cons]

theorem sortBy_aux_mem {α : Type} (le : α → α → Bool) :
    ∀ (l acc : List α) (x : α),
      x ∈ l.foldl (fun acc a => insertStable le a acc) acc ↔
        x ∈ acc ∨ x ∈ l := by
  intro l
  induction l with
  | nil => intro acc x; simp
  | cons a t ih =>
    intro acc x
    simp only [List.foldl_cons, ih, insertStable_mem, List.mem_cons]
    tauto

theorem sortBy_mem {α : Type} (le : α → α → Bool) (l : List α) (x : α) :
    x ∈ sortBy le l ↔ x ∈ l := by
  unfold sortBy
  rw [sortBy_aux_mem]
  simp

theorem enumFromIdx_snd_mem {α : Type} (l : List α) :
    ∀ n i a, (i, a) ∈ enumFromIdx n l → a ∈ l := by
  induction l with
  | nil => intro n i a h; simp [enumFromIdx] at h
  | cons x t ih =>
    intro n i a h
    simp only [enumFromIdx, List.mem_cons] at h
    rcases h with h | h
    · injection h with h1 h2
      rw [← h2]
      exact List.mem_cons_self _ _
    · exact List.mem_cons_of_mem _ (ih (n + 1) i a h)

theorem burstWalk_length (recs : List ImageData) (w : Int) :
    ∀ (sorted : List (Nat × ImageData)) (seqs : List (List Nat))
      (cur : List Nat),
      (∀ s ∈ seqs, 2 ≤ s.length) →
      ∀ s ∈ burstWalk recs w sorted seqs cur, 2 ≤ s.length := by
  intro sorted
  induction sorted with
  | nil =>
    intro seqs cur hseqs s hs
    simp only [burstWalk] at hs
    by_cases hc : cur.length > 1
    · rw [if_pos hc] at hs
      rcases List.mem_append.mp hs with h | h
      · exact hseqs s h
      · rw [List.mem_singleton.mp h]; omega
    · rw [if_neg hc] at hs
      exact hseqs s hs
  | cons p rest ih =>
    intro seqs cur hseqs s hs
    obtain ⟨idx, img⟩ := p
    simp only [burstWalk] at hs
    by_cases h0 : img.capture_time = none
    · rw [if_pos h0] at hs
      exact ih seqs cur hseqs s hs
    rw [if_neg h0] at hs
    by_cases h1 : cur.isEmpty
    · rw [if_pos h1] at hs
      exact ih seqs [idx] hseqs s hs
    rw [if_neg h1] at hs
    by_cases h2 : img.capture_time.getD 0 -
        (recs.getD (cur.getLastD 0) default).capture_time.getD 0 ≤ w
    · rw [if_pos h2] at hs
      by_cases h3 : calcSimOpt img.dhash
          (recs.getD (cur.getLastD 0) default).dhash "dhash" ≤
          burst_visual_threshold
      · rw [if_pos h3] at hs
        exact ih seqs (cur ++ [idx]) hseqs s hs
      · rw [if_neg h3] at hs
        refine ih _ [idx] ?_ s hs
        intro s' hs'
        by_cases hc : cur.length > 1
        · rw [if_pos hc] at hs'
          rcases List.mem_append.mp hs' with h | h
          · exact hseqs s' h
          · rw [List.mem_singleton.mp h]; omega
        · rw [if_neg hc] at hs'
          exact hseqs s' hs'
    · rw [if_neg h2] at hs
      refine ih _ [idx] ?_ s hs
      intro s' hs'
      by_cases hc : cur.length > 1
      · rw [if_pos hc] at hs'
        rcases List.mem_append.mp hs' with h | h
        · exact hseqs s' h
        · rw [List.mem_singleton.mp h]; omega
      · rw [if_neg hc] at hs'
        exact hseqs s' hs'

/-- The visual link the burst walk establishes between consecutive
members of a sequence: appending `b` after `a` required
`calculate_similarity(records[b].dhash, records[a].dhash) ≤ 30`. -/
def burstSimR (image_data : List ImageData) (a b : Nat) : Prop :=
  calcSimOpt (image_data.getD b default).dhash
    (image_data.getD a default).dhash "dhash" ≤ burst_visual_threshold

theorem burstWalk_chain (recs : List ImageData) (w : Int) :
    ∀ (sorted : List (Nat × ImageData)) (seqs : List (List Nat))
      (cur : List Nat),
      (∀ p : Nat × ImageData, p ∈ sorted → recs.getD p.1 default = p.2) →
      (∀ s ∈ seqs, List.Chain' (burstSimR recs) s) →
      List.Chain' (burstSimR recs) cur →
      ∀ s ∈ burstWalk recs w sorted seqs cur,
        List.Chain' (burstSimR recs) s := by
  intro sorted
  induction sorted with
  | nil =>
    intro seqs cur hsorted hseqs hcur s hs
    simp only [burstWalk] at hs
    by_cases hc : cur.length > 1
    · rw [if_pos hc] at hs
      rcases List.mem_append.mp hs with h | h
      · exact hseqs s h
      · rw [List.mem_singleton.mp h]; exact hcur
    · rw [if_neg hc] at hs
      exact hseqs s hs
  | cons p rest ih =>
    intro seqs cur hsorted hseqs hcur s hs
    obtain ⟨idx, img⟩ := p
    have hsorted' : ∀ p : Nat × ImageData, p ∈ rest →
        recs.getD p.1 default = p.2 :=
      fun p hp => hsorted p (List.mem_cons_of_mem _ hp)
    have hflush : ∀ s' ∈ (if cur.length > 1 then seqs ++ [cur] else seqs),
        List.Chain' (burstSimR recs) s' := by
      intro s' hs'
      by_cases hc : cur.length > 1
      · rw [if_pos hc] at hs'
        rcases List.mem_append.mp hs' with h | h
        · exact hseqs s' h
        · rw [List.mem_singleton.mp h]; exact hcur
      · rw [if_neg hc] at hs'
        exact hseqs s' hs'
    simp only [burstWalk] at hs
    by_cases h0 : img.capture_time = none
    · rw [if_pos h0] at hs
      exact ih seqs cur hsorted' hseqs hcur s hs
    rw [if_neg h0] at hs
    by_cases h1 : cur.isEmpty
    · rw [if_pos h1] at hs
      exact ih seqs [idx] hsorted' hseqs (by simp) s hs
    rw [if_neg h1] at hs
    by_cases h2 : img.capture_time.getD 0 -
        (recs.getD (cur.getLastD 0) default).capture_time.getD 0 ≤ w
    · rw [if_pos h2] at hs
      by_cases h3 : calcSimOpt img.dhash
          (recs.getD (cur.getLastD 0) default).dhash "dhash" ≤
          burst_visual_threshold
      · rw [if_pos h3] at hs
        refine ih seqs (cur ++ [idx]) hsorted' hseqs ?_ s hs
        rw [List.chain'_append]
        refine ⟨hcur, by simp, ?_⟩
        intro x hx y hy
        rw [List.head?_cons, Option.mem_some_iff] at hy
        subst hy
        have hlastD : cur.getLastD 0 = x := by
          rw [List.getLastD_eq_getLast?]
          rw [Option.mem_def] at hx
          rw [hx]
          rfl
        unfold burstSimR
        rw [hsorted (idx, img) (List.mem_cons_self _ _)]
        rw [hlastD] at h3
        exact h3
      · rw [if_neg h3] at hs
        exact ih _ [idx] hsorted' hflush (by simp) s hs
    · rw [if_neg h2] at hs
      exact ih _ [idx] hsorted' hflush (by simp) s hs

theorem burstWalk_eq_spec (recs : List ImageData) (w : Int) :
    ∀ (sorted : List (Nat × ImageData)) (seqs : List (List Nat))
      (curs : List (Nat × ImageData)),
      (∀ p : Nat × ImageData, p ∈ sorted →
        recs.getD p.1 default = p.2 ∧ p.2.capture_time.isSome) →
      (∀ p : Nat × ImageData, p ∈ curs → recs.getD p.1 default = p.2) →
      burstWalk recs w sorted seqs (curs.map Prod.fst) =
        specBurstWalk w sorted seqs curs := by
  intro sorted
  induction sorted with
  | nil =>
    intro seqs curs hsorted hcurs
    simp only [burstWalk, specBurstWalk, List.length_map]
    exact if_congr (by omega) rfl rfl
  | cons p rest ih =>
    intro seqs curs hsorted hcurs
    obtain ⟨idx, r⟩ := p
    obtain ⟨hhead_get, hhead_time⟩ := hsorted (idx, r) (List.mem_cons_self _ _)
    have hsorted' : ∀ p : Nat × ImageData, p ∈ rest →
        recs.getD p.1 default = p.2 ∧ p.2.capture_time.isSome :=
      fun p hp => hsorted p (List.mem_cons_of_mem _ hp)
    have h0 : ¬ r.capture_time = none := by
      intro h
      rw [h] at hhead_time
      simp at hhead_time
    simp only [burstWalk, specBurstWalk]
    rw [if_neg h0]
    cases curs with
    | nil =>
      rw [if_pos (by simp)]
      rw [show ([] : List (Nat × ImageData)).getLast? = none from rfl]
      exact ih seqs [(idx, r)]
        hsorted'
        (fun p hp => by
          rw [List.mem_singleton.mp hp]
          exact hhead_get)
    | cons c cs =>
      rw [if_neg (by simp)]
      obtain ⟨q, hq, hqmem⟩ := getLast?_cons_ex cs c
      have hprev_idx : (((c :: cs).map Prod.fst).getLastD 0) = q.1 := by
        rw [List.getLastD_eq_getLast?, List.getLast?_map, hq]
        rfl
      have hprev_img : recs.getD q.1 default = q.2 := hcurs q hqmem
      rw [hq]
      dsimp only
      rw [hprev_idx, hprev_img]
      by_cases hg : r.capture_time.getD 0 - q.2.capture_time.getD 0 ≤ w
      · rw [if_pos hg]
        by_cases hv : calcSimOpt r.dhash q.2.dhash "dhash" ≤
            burst_visual_threshold
        · rw [if_pos hv, if_pos ⟨hg, hv⟩]
          rw [show (c :: cs).map Prod.fst ++ [idx] =
            ((c :: cs) ++ [(idx, r)]).map Prod.fst by simp]
          exact ih seqs ((c :: cs) ++ [(idx, r)]) hsorted'
            (fun p hp => by
              rcases List.mem_append.mp hp with h | h
              · exact hcurs p h
              · rw [List.mem_singleton.mp h]
                exact hhead_get)
        · rw [if_neg hv,
            if_neg (show ¬(r.capture_time.getD 0 -
                q.2.capture_time.getD 0 ≤ w ∧
                calcSimOpt r.dhash q.2.dhash "dhash" ≤
                  burst_visual_threshold) from fun hx => hv hx.2)]
          rw [show ([idx] : List Nat) = [(idx, r)].map Prod.fst from rfl]
          rw [show (if ((c :: cs).map Prod.fst).length > 1 then
                seqs ++ [(c :: cs).map Prod.fst] else seqs) =
              (if 2 ≤ (c :: cs).length then
                seqs ++ [(c :: cs).map Prod.fst] else seqs) by
            simp only [List.length_map]
            exact if_congr (by omega) rfl rfl]
          exact ih _ [(idx, r)] hsorted'
            (fun p hp => by
              rw [List.mem_singleton.mp hp]
              exact hhead_get)
      · rw [if_neg hg,
          if_neg (show ¬(r.capture_time.getD 0 -
              q.2.capture_time.getD 0 ≤ w ∧
              calcSimOpt r.dhash q.2.dhash "dhash" ≤
                burst_visual_threshold) from fun hx => hg hx.1)]
        rw [show ([idx] : List Nat) = [(idx, r)].map Prod.fst from rfl]
        rw [show (if ((c :: cs).map Prod.fst).length > 1 then
              seqs ++ [(c :: cs).map Prod.fst] else seqs) =
            (if 2 ≤ (c :: cs).length then
              seqs ++ [(c :: cs).map Prod.fst] else seqs) by
          simp only [List.length_map]
          exact if_congr (by omega) rfl rfl]
        exact ih _ [(idx, r)] hsorted'
          (fun p hp => by
            rw [List.mem_singleton.mp hp]
            exact hhead_get)

/-- On inputs where every record carries a capture time, the source's
`find_burst_sequences` succeeds and agrees with the specification's
detector (discard-sort-walk with the documented append/flush rules). -/
theorem find_burst_sequences_eq_spec (recs : List ImageData) (w : Int)
    (hall : ∀ r ∈ recs, r.capture_time.isSome) :
    find_burst_sequences recs w = .ok (specFindBurstSequences recs w) := by
  unfold find_burst_sequences specFindBurstSequences
  rw [if_neg]
  · have hfilter : (enumFromIdx 0 recs).filter
        (fun p => p.2.capture_time.isSome) = enumFromIdx 0 recs := by
      apply List.filter_eq_self.mpr
      intro p hp
      exact hall p.2 (enumFromIdx_snd_mem recs 0 p.1 p.2 (by
        obtain ⟨i, a⟩ := p
        exact hp))
    rw [hfilter]
    have := burstWalk_eq_spec recs w
      (sortBy burstLe (enumFromIdx 0 recs)) [] []
      (fun p hp => by
        have hmem : p ∈ enumFromIdx 0 recs :=
          (sortBy_mem burstLe (enumFromIdx 0 recs) p).mp hp
        obtain ⟨i, a⟩ := p
        obtain ⟨-, hget⟩ := enumFromIdx_mem_getD recs 0 i a hmem
        simp only [Nat.sub_zero] at hget
        exact ⟨hget, hall a (enumFromIdx_snd_mem recs 0 i a hmem)⟩)
      (fun p hp => by simp at hp)
    simp only [List.map_nil] at this
    dsimp only
    rw [this]
  · intro hcontra
    obtain ⟨-, r, hr, hnone⟩ := hcontra
    have := hall r hr
    rw [hnone] at this
    simp at this

/-! ### Lemmas about the exact-hash grouper -/

/-- The bucket a key owns in the insertion-ordered map (empty when the
key is absent). -/
def findBucket (m : List (String × List DBImage)) (k : String) :
    List DBImage :=
  match m.find? (fun e => e.1 = k) with
  | none => []
  | some e => e.2

theorem findBucket_cons (k1 : String) (b : List DBImage)
    (rest : List (String × List DBImage)) (k : String) :
    findBucket ((k1, b) :: rest) k = if k1 = k then b else findBucket rest k := by
  by_cases h : k1 = k
  · subst h
    simp [findBucket, List.find?]
  · simp [findBucket, List.find?, h]

theorem insertKey_findBucket (k0 : String) (img : DBImage) :
    ∀ (m : List (String × List DBImage)) (k : String),
      findBucket (insertKey m k0 img) k =
        findBucket m k ++ (if k = k0 then [img] else []) := by
  intro m
  induction m with
  | nil =>
    intro k
    by_cases hk : k = k0
    · subst hk
      simp only [insertKey, findBucket, List.find?]
      simp
    · simp only [insertKey]
      rw [findBucket_cons]
      rw [if_neg (fun h => hk h.symm), if_neg hk]
      rfl
  | cons e rest ih =>
    intro k
    obtain ⟨k1, b⟩ := e
    by_cases h10 : k1 = k0
    · subst h10
      simp only [insertKey, eq_self_iff_true, if_true]
      rw [findBucket_cons, findBucket_cons]
      by_cases hk : k1 = k
      · subst hk
        simp
      · rw [if_neg hk, if_neg hk, if_neg (fun h => hk h.symm)]
        simp
    · simp only [insertKey, if_neg h10]
      rw [findBucket_cons, findBucket_cons]
      by_cases hk : k1 = k
      · subst hk
        rw [if_pos rfl, if_pos rfl, if_neg (fun h => h10 h)]
        simp
      · rw [if_neg hk, if_neg hk]
        exact ih k

theorem foldl_insertKey_findBucket :
    ∀ (l : List DBImage) (m : List (String × List DBImage)) (k : String),
      findBucket (l.foldl (fun m img => insertKey m (hash_key img) img) m) k
        = findBucket m k ++ l.filter (fun i => hash_key i = k) := by
  intro l
  induction l with
  | nil => intro m k; simp
  | cons img t ih =>
    intro m k
    simp only [List.foldl_cons]
    rw [ih]
    rw [insertKey_findBucket]
    by_cases hk : k = hash_key img
    · rw [if_pos hk]
      rw [List.filter_cons_of_pos (by simp [hk.symm])]
      simp
    · rw [if_neg hk]
      rw [List.filter_cons_of_neg (by simp; exact fun h => hk h.symm)]
      simp

theorem hash_groups_findBucket (l : List DBImage) (k : String) :
    findBucket (hash_groups l) k = l.filter (fun i => hash_key i = k) := by
  unfold hash_groups
  rw [foldl_insertKey_findBucket]
  rfl

theorem findBucket_mem {m : List (String × List DBImage)} {k : String}
    (h : findBucket m k ≠ []) : (k, findBucket m k) ∈ m := by
  unfold findBucket at h ⊢
  cases hf : m.find? (fun e => e.1 = k) with
  | none =>
    rw [hf] at h
    exact absurd rfl h
  | some e =>
    dsimp only
    have he1 : e.1 = k := by
      have := List.find?_some hf
      simpa using this
    have hem : e ∈ m := List.mem_of_find?_eq_some hf
    rw [show (k, e.2) = e from by rw [← he1]]
    exact hem

theorem countP_two_le {α : Type} [Inhabited α] (p : α → Bool) :
    ∀ (l : List α) (i j : Nat), i < j → j < l.length →
      p (l.getD i default) = true → p (l.getD j default) = true →
      2 ≤ l.countP p := by
  intro l
  induction l with
  | nil => intro i j hij hj hpi hpj; simp at hj
  | cons x t ih =>
    intro i j hij hj hpi hpj
    rw [List.countP_cons]
    cases i with
    | zero =>
      have hx : p x = true := by simpa using hpi
      have hjt : j - 1 < t.length := by
        simp at hj
        omega
      have hmem : t.getD (j - 1) default ∈ t := by
        rw [List.getD_eq_getElem t default hjt]
        exact List.getElem_mem ..
      have hpos : 0 < t.countP p := by
        rw [List.countP_pos_iff]
        refine ⟨t.getD (j - 1) default, hmem, ?_⟩
        have : (x :: t).getD j default = t.getD (j - 1) default := by
          cases j with
          | zero => omega
          | succ j0 => simp
        rw [this] at hpj
        exact hpj
      rw [hx, if_pos rfl]
      omega
    | succ i0 =>
      cases j with
      | zero => omega
      | succ j0 =>
        have h2 := ih i0 j0 (by omega) (by simp at hj; omega)
          (by simpa using hpi) (by simpa using hpj)
        omega

/-! ### Lemmas about the representative selection -/

theorem insertStable_pairwise {α : Type} (le : α → α → Bool)
    (htot : ∀ a b, le a b = true ∨ le b a = true)
    (htrans : ∀ a b c, le a b = true → le b c = true → le a c = true)
    (a : α) :
    ∀ l : List α, l.Pairwise (fun x y => le x y = true) →
      (insertStable le a l).Pairwise (fun x y => le x y = true) := by
  intro l
  induction l with
  | nil => intro _; simp [insertStable]
  | cons b t ih =>
    intro hp
    rw [List.pairwise_cons] at hp
    obtain ⟨hb, ht⟩ := hp
    simp only [insertStable]
    by_cases h : le b a
    · rw [if_pos h]
      rw [List.pairwise_cons]
      refine ⟨?_, ih ht⟩
      intro x hx
      rcases (insertStable_mem le a t x).mp hx with rfl | hx
      · exact h
      · exact hb x hx
    · rw [if_neg h]
      have hab : le a b = true := by
        rcases htot a b with hab | hba
        · exact hab
        · exact absurd hba h
      rw [List.pairwise_cons]
      refine ⟨?_, by rw [List.pairwise_cons]; exact ⟨hb, ht⟩⟩
      intro x hx
      rcases List.mem_cons.mp hx with rfl | hx
      · exact hab
      · exact htrans a b x hab (hb x hx)

theorem sortBy_pairwise {α : Type} (le : α → α → Bool)
    (htot : ∀ a b, le a b = true ∨ le b a = true)
    (htrans : ∀ a b c, le a b = true → le b c = true → le a c = true) :
    ∀ (l acc : List α),
      acc.Pairwise (fun x y => le x y = true) →
      (l.foldl (fun acc a => insertStable le a acc) acc).Pairwise
        (fun x y => le x y = true) := by
  intro l
  induction l with
  | nil => intro acc h; exact h
  | cons a t ih =>
    intro acc h
    simp only [List.foldl_cons]
    exact ih (insertStable le a acc)
      (insertStable_pairwise le htot htrans a acc h)

theorem sortBy_head_min {α : Type} (le : α → α → Bool)
    (htot : ∀ a b, le a b = true ∨ le b a = true)
    (htrans : ∀ a b c, le a b = true → le b c = true → le a c = true)
    (l : List α) (b : α) (h : (sortBy le l).head? = some b) :
    b ∈ l ∧ ∀ x ∈ l, le b x = true := by
  have hpair : (sortBy le l).Pairwise (fun x y => le x y = true) :=
    sortBy_pairwise le htot htrans l [] (by simp)
  cases hs : sortBy le l with
  | nil => rw [hs] at h; simp at h
  | cons b0 rest =>
    rw [hs] at h
    rw [List.head?_cons, Option.some_inj] at h
    subst h
    constructor
    · exact (sortBy_mem le l b0).mp (by rw [hs]; exact List.mem_cons_self _ _)
    · intro x hx
      have hx' : x ∈ sortBy le l := (sortBy_mem le l x).mpr hx
      rw [hs] at hx'
      rcases List.mem_cons.mp hx' with rfl | hx'
      · rcases htot x x with h | h <;> exact h
      · rw [hs] at hpair
        rw [List.pairwise_cons] at hpair
        exact hpair.1 x hx'

theorem bestLe_total (a b : DBImage) :
    bestLe a b = true ∨ bestLe b a = true := by
  unfold bestLe
  by_cases h : score_key a = score_key b
  · rw [if_pos h, if_pos h.symm]
    simp only [decide_eq_true_eq]
    exact le_total a.filename b.filename
  · rw [if_neg h, if_neg (fun hx => h hx.symm)]
    simp only [decide_eq_true_eq]
    rcases lt_trichotomy (score_key a) (score_key b) with hlt | heq | hgt
    · exact Or.inl hlt
    · exact absurd heq h
    · exact Or.inr hgt

theorem bestLe_trans (a b c : DBImage) (hab : bestLe a b = true)
    (hbc : bestLe b c = true) : bestLe a c = true := by
  unfold bestLe at hab hbc ⊢
  by_cases h1 : score_key a = score_key b <;>
    by_cases h2 : score_key b = score_key c
  · rw [if_pos h1] at hab
    rw [if_pos h2] at hbc
    rw [if_pos (h1.trans h2)]
    simp only [decide_eq_true_eq] at hab hbc ⊢
    exact le_trans hab hbc
  · rw [if_neg h2] at hbc
    rw [if_neg (fun hx => h2 (h1 ▸ hx))]
    simp only [decide_eq_true_eq] at hbc ⊢
    omega
  · rw [if_neg h1] at hab
    rw [if_neg (fun hx => h1 (h2 ▸ hx))]
    simp only [decide_eq_true_eq] at hab ⊢
    omega
  · rw [if_neg h1] at hab
    rw [if_neg h2] at hbc
    simp only [decide_eq_true_eq] at hab hbc
    rw [if_neg (by omega)]
    simp only [decide_eq_true_eq]
    omega

/-! ### Claim theorems -/

/-- C4 (amended): on two valid fingerprint codes of different bit
length, `calculate_similarity` does not raise an
`IncompatibleHashError` (no such exception class exists in the code);
the shape-mismatch error raised by the hash subtraction is caught by
the function's `except` handler, which returns the sentinel distance
`999`. -/
theorem C4_mismatch_returns_999 (a b ty : String)
    (ha : validCode a) (hb : validCode b) (hlen : a.length ≠ b.length) :
    calculate_similarity a b ty = 999 :=
  calculate_similarity_999_of_length_ne ty ha hb hlen

theorem C4_witness :
    validCode "0" ∧ validCode "0000" ∧
    ("0" : String).length ≠ ("0000" : String).length ∧
    calculate_similarity "0" "0000" "dhash" = 999 :=
  ⟨by decide, by decide, by decide,
   C4_mismatch_returns_999 "0" "0000" "dhash" (by decide) (by decide)
     (by decide)⟩

/-- C4 counterexample: comparing the valid 4-bit code `"0"` with the
valid 16-bit code `"0000"` does not fail — `calculate_similarity` is
total and silently returns the numeric value `999` for this
mismatched-length pair, contradicting the claim that such a comparison
always fails with `IncompatibleHashError` and is never coerced to a
number. -/
theorem C4_counterexample :
    calculate_similarity "0" "0000" "dhash" = 999 := by decide

/-- C8: on valid equal-length fingerprint codes the Hamming distance of
`calculate_similarity` is symmetric, is zero exactly when the two codes
are equal, and in particular is zero on every code compared with
itself. -/
theorem C8_distance_symm_zero_iff (a b ty : String)
    (ha : validCode a) (hb : validCode b) (hlen : a.length = b.length) :
    calculate_similarity a b ty = calculate_similarity b a ty ∧
    (calculate_similarity a b ty = 0 ↔ a = b) ∧
    calculate_similarity a a ty = 0 :=
  ⟨calculate_similarity_symm a b ty,
   calculate_similarity_eq_zero_iff ty ha hb hlen,
   (calculate_similarity_eq_zero_iff ty ha ha rfl).mpr rfl⟩

theorem C8_witness :
    validCode "00ff" ∧ validCode "0f0f" ∧
    ("00ff" : String).length = ("0f0f" : String).length ∧
    (calculate_similarity "00ff" "0f0f" "dhash" =
       calculate_similarity "0f0f" "00ff" "dhash" ∧
     (calculate_similarity "00ff" "0f0f" "dhash" = 0 ↔
       ("00ff" : String) = "0f0f") ∧
     calculate_similarity "00ff" "00ff" "dhash" = 0) :=
  ⟨by decide, by decide, by decide,
   C8_distance_symm_zero_iff "00ff" "0f0f" "dhash" (by decide) (by decide)
     (by decide)⟩

theorem calc_sim_999_of_not_comparable {s1 s2 : String} (ty : String)
    (h : ¬ hashComparable (some s1) (some s2)) :
    calculate_similarity s1 s2 ty = 999 := by
  cases hh1 : hex_to_hash s1 with
  | none => exact calculate_similarity_999_of_parse_fail ty (Or.inl hh1)
  | some b1 =>
    cases hh2 : hex_to_hash s2 with
    | none => exact calculate_similarity_999_of_parse_fail ty (Or.inr hh2)
    | some b2 =>
      by_cases hl : b1.length = b2.length
      · exact absurd ⟨s1, s2, b1, b2, rfl, rfl, hh1, hh2, hl⟩ h
      · unfold calculate_similarity
        rw [hh1, hh2]
        dsimp only
        rw [if_neg hl]

theorem chain'_head_all {α : Type} (P : α → α → Prop)
    (htrans : ∀ a b c, P a b → P b c → P a c) :
    ∀ (t : List α) (x : α), List.Chain' P (x :: t) → ∀ y ∈ t, P x y := by
  intro t
  induction t with
  | nil => intro x _ y hy; simp at hy
  | cons z t' ih =>
    intro x hc y hy
    rw [List.chain'_cons] at hc
    obtain ⟨hxz, hc'⟩ := hc
    rcases List.mem_cons.mp hy with rfl | hy
    · exact hxz
    · exact htrans x z y hxz (ih z hc' y hy)

theorem chain'_all_pairs {α : Type} (P : α → α → Prop)
    (hsym : ∀ a b, P a b → P b a)
    (htrans : ∀ a b c, P a b → P b c → P a c) :
    ∀ (s : List α), List.Chain' P s →
      ∀ i ∈ s, ∀ j ∈ s, i ≠ j → P i j := by
  intro s
  induction s with
  | nil => intro _ i hi; simp at hi
  | cons x t ih =>
    intro hc i hi j hj hij
    have hc' : List.Chain' P t := (List.chain'_cons'.mp hc).2
    rcases List.mem_cons.mp hi with hieq | hi
    · rcases List.mem_cons.mp hj with hjeq | hj
      · exact absurd (hieq.trans hjeq.symm) hij
      · rw [hieq]
        exact chain'_head_all P htrans t x hc j hj
    · rcases List.mem_cons.mp hj with hjeq | hj
      · rw [hjeq]
        exact hsym _ _ (chain'_head_all P htrans t x hc i hi)
      · exact ih hc' i hi j hj hij

/-- C10: the similarity comparison never raises.  It returns the
sentinel `999` whenever the two codes cannot be parsed and compared
(absent hash, malformed hex, or bit arrays of different length); `999`
exceeds both the duplicate threshold (10) and the burst visual
threshold (30); and consequently any two distinct members of an
emitted duplicate group (at the default threshold) or burst sequence
have genuinely comparable hashes — a pair whose comparison fails is
never merged. -/
theorem C10_sentinel_never_merges :
    (∀ s1 s2 ty : String, ¬ hashComparable (some s1) (some s2) →
      calculate_similarity s1 s2 ty = 999) ∧
    (∀ h2 ty, calcSimOpt none h2 ty = 999) ∧
    (∀ h1 ty, calcSimOpt h1 none ty = 999) ∧
    (similarity_threshold_default < 999 ∧ burst_visual_threshold < 999) ∧
    (∀ (image_data : List ImageData),
      ∀ g ∈ find_duplicate_groups image_data similarity_threshold_default,
      ∀ i ∈ g, ∀ j ∈ g, i ≠ j →
        hashComparable (image_data.getD i default).dhash
          (image_data.getD j default).dhash ∧
        hashComparable (image_data.getD i default).phash
          (image_data.getD j default).phash) ∧
    (∀ (image_data : List ImageData) (w : Int) (out : List (List Nat)),
      find_burst_sequences image_data w = .ok out →
      ∀ s ∈ out, ∀ i ∈ s, ∀ j ∈ s, i ≠ j →
        hashComparable (image_data.getD i default).dhash
          (image_data.getD j default).dhash) := by
  refine ⟨fun s1 s2 ty h => calc_sim_999_of_not_comparable ty h,
    fun h2 ty => by cases h2 <;> rfl, fun h1 ty => by cases h1 <;> rfl,
    ⟨by decide, by decide⟩, ?_, ?_⟩
  · intro image_data g hg i hi j hj hij
    obtain ⟨a, img1, merged, hmem, hgeq, -, hall⟩ :=
      groupLoop_mem similarity_threshold_default
        (enumFromIdx 0 image_data) [] g hg
    have hanchor : image_data.getD a default = img1 := by
      obtain ⟨-, h⟩ := enumFromIdx_mem_getD image_data 0 a img1 hmem
      simpa using h
    have hmerged : ∀ j' ∈ merged,
        hashComparable img1.dhash (image_data.getD j' default).dhash ∧
        hashComparable img1.phash (image_data.getD j' default).phash := by
      intro j' hj'
      obtain ⟨img2, hmem2, hd, hp⟩ := hall j' hj'
      have hget : image_data.getD j' default = img2 := by
        obtain ⟨-, h⟩ := enumFromIdx_mem_getD image_data 0 j' img2 hmem2
        simpa using h
      rw [hget]
      exact ⟨calcSimOpt_lt_comparable hd (by decide),
        calcSimOpt_lt_comparable hp (by decide)⟩
    subst hgeq
    rcases List.mem_cons.mp hi with hieq | hi
    · rcases List.mem_cons.mp hj with hjeq | hj
      · exact absurd (hieq.trans hjeq.symm) hij
      · rw [hieq, hanchor]
        exact hmerged j hj
    · rcases List.mem_cons.mp hj with hjeq | hj
      · rw [hjeq, hanchor]
        exact ⟨hashComparable_symm (hmerged i hi).1,
          hashComparable_symm (hmerged i hi).2⟩
      · obtain ⟨hdi, hpi⟩ := hmerged i hi
        obtain ⟨hdj, hpj⟩ := hmerged j hj
        exact ⟨hashComparable_trans (hashComparable_symm hdi) hdj,
          hashComparable_trans (hashComparable_symm hpi) hpj⟩
  · intro image_data w out hok s hs i hi j hj hij
    unfold find_burst_sequences at hok
    by_cases hcond : 2 ≤ image_data.length ∧
        ∃ r ∈ image_data, r.capture_time = none
    · rw [if_pos hcond] at hok
      exact absurd hok (by simp)
    · rw [if_neg hcond] at hok
      have hout : out = burstWalk image_data w
          (sortBy burstLe (enumFromIdx 0 image_data)) [] [] := by
        injection hok with h
        exact h.symm
      subst hout
      have hchain : List.Chain' (burstSimR image_data) s :=
        burstWalk_chain image_data w
          (sortBy burstLe (enumFromIdx 0 image_data)) [] []
          (fun p hp => by
            have hmem : p ∈ enumFromIdx 0 image_data :=
              (sortBy_mem burstLe (enumFromIdx 0 image_data) p).mp hp
            obtain ⟨i0, a0⟩ := p
            obtain ⟨-, h⟩ := enumFromIdx_mem_getD image_data 0 i0 a0 hmem
            simpa using h)
          (by simp) (by simp) s hs
      refine chain'_all_pairs
        (fun a b => hashComparable (image_data.getD a default).dhash
          (image_data.getD b default).dhash)
        (fun a b h => hashComparable_symm h)
        (fun a b c h1 h2 => hashComparable_trans h1 h2)
        s ?_ i hi j hj hij
      exact hchain.imp (fun a b h =>
        hashComparable_symm (calcSimOpt_lt_comparable h (by decide)))

theorem C10_witness :
    calculate_similarity "zz" "0" "dhash" = 999 ∧
    calcSimOpt none (some "0") "dhash" = 999 ∧
    calcSimOpt (some "0") none "dhash" = 999 ∧
    similarity_threshold_default < 999 ∧ burst_visual_threshold < 999 ∧
    (hashComparable
      (([⟨some "0000000000000000", some "0000000000000000", some 0, none⟩,
         ⟨some "0000000000000000", some "0000000000000000", some 1, none⟩] :
        List ImageData).getD 0 default).dhash
      (([⟨some "0000000000000000", some "0000000000000000", some 0, none⟩,
         ⟨some "0000000000000000", some "0000000000000000", some 1, none⟩] :
        List ImageData).getD 1 default).dhash ∧
     hashComparable
      (([⟨some "0000000000000000", some "0000000000000000", some 0, none⟩,
         ⟨some "0000000000000000", some "0000000000000000", some 1, none⟩] :
        List ImageData).getD 0 default).phash
      (([⟨some "0000000000000000", some "0000000000000000", some 0, none⟩,
         ⟨some "0000000000000000", some "0000000000000000", some 1, none⟩] :
        List ImageData).getD 1 default).phash) ∧
    hashComparable
      (([⟨some "0000000000000000", some "0000000000000000", some 0, none⟩,
         ⟨some "0000000000000000", some "0000000000000000", some 1, none⟩] :
        List ImageData).getD 0 default).dhash
      (([⟨some "0000000000000000", some "0000000000000000", some 0, none⟩,
         ⟨some "0000000000000000", some "0000000000000000", some 1, none⟩] :
        List ImageData).getD 1 default).dhash := by
  obtain ⟨h1, h2, h3, h4, h5, h6⟩ := C10_sentinel_never_merges
  refine ⟨?_, h2 (some "0") "dhash", h3 (some "0") "dhash", h4.1, h4.2,
    ?_, ?_⟩
  · refine h1 "zz" "0" "dhash" ?_
    rintro ⟨t1, t2, b1, b2, e1, e2, p1, p2, -⟩
    obtain rfl : t1 = "zz" := by injection e1 with e1; exact e1.symm
    rw [show hex_to_hash "zz" = none from by decide] at p1
    exact Option.noConfusion p1
  · exact h5
      [⟨some "0000000000000000", some "0000000000000000", some 0, none⟩,
       ⟨some "0000000000000000", some "0000000000000000", some 1, none⟩]
      [0, 1] (by decide) 0 (by decide) 1 (by decide) (by decide)
  · exact h6
      [⟨some "0000000000000000", some "0000000000000000", some 0, none⟩,
       ⟨some "0000000000000000", some "0000000000000000", some 1, none⟩]
      5 [[0, 1]] (by decide) [0, 1] (by decide) 0 (by decide) 1 (by decide)
      (by decide)

/-- C6: neither clustering path ever emits a group with fewer than two
members — `find_duplicate_groups` guards every emission with
`len(group) > 1`, the exact-hash grouping of `detect_duplicates` skips
buckets with at most one row, and `find_burst_sequences` flushes a
sequence only when it has at least two members. -/
theorem C6_no_singletons :
    (∀ (image_data : List ImageData) (t : Nat),
      ∀ g ∈ find_duplicate_groups image_data t, 2 ≤ g.length) ∧
    (∀ l : List DBImage, ∀ g ∈ exact_duplicate_groups l, 2 ≤ g.length) ∧
    (∀ (image_data : List ImageData) (w : Int) (out : List (List Nat)),
      find_burst_sequences image_data w = .ok out →
      ∀ s ∈ out, 2 ≤ s.length) := by
  refine ⟨?_, ?_, ?_⟩
  · intro image_data t g hg
    obtain ⟨-, -, -, -, -, hlen, -⟩ :=
      groupLoop_mem t (enumFromIdx 0 image_data) [] g hg
    omega
  · intro l g hg
    unfold exact_duplicate_groups at hg
    have := List.of_mem_filter hg
    simp only [gt_iff_lt, decide_eq_true_eq] at this
    omega
  · intro image_data w out hok s hs
    unfold find_burst_sequences at hok
    by_cases hcond : 2 ≤ image_data.length ∧
        ∃ r ∈ image_data, r.capture_time = none
    · rw [if_pos hcond] at hok
      exact absurd hok (by simp)
    · rw [if_neg hcond] at hok
      have hout : out = burstWalk image_data w
          (sortBy burstLe (enumFromIdx 0 image_data)) [] [] := by
        injection hok with h
        exact h.symm
      subst hout
      exact burstWalk_length image_data w
        (sortBy burstLe (enumFromIdx 0 image_data)) [] []
        (by simp) s hs

theorem C6_witness :
    (2 ≤ ([0, 1] : List Nat).length) ∧
    (2 ≤ ([⟨1, "a.jpg", some "aa", some "bb", none, none⟩,
           ⟨2, "b.jpg", some "aa", some "bb", none, none⟩] :
          List DBImage).length) ∧
    (2 ≤ ([0, 1] : List Nat).length) := by
  obtain ⟨h1, h2, h3⟩ := C6_no_singletons
  refine ⟨?_, ?_, ?_⟩
  · exact h1
      [⟨some "0000000000000000", some "0000000000000000", none, none⟩,
       ⟨some "0000000000000000", some "0000000000000000", none, none⟩]
      10 [0, 1] (by decide)
  · exact h2
      [⟨1, "a.jpg", some "aa", some "bb", none, none⟩,
       ⟨2, "b.jpg", some "aa", some "bb", none, none⟩]
      [⟨1, "a.jpg", some "aa", some "bb", none, none⟩,
       ⟨2, "b.jpg", some "aa", some "bb", none, none⟩]
      (by decide)
  · exact h3
      [⟨some "0000000000000000", some "0000000000000000", some 0, none⟩,
       ⟨some "0000000000000000", some "0000000000000000", some 1, none⟩]
      5 [[0, 1]] (by decide) [0, 1] (by decide)

/-- C7: two eligible rows (both hashes non-NULL, as the SQL filters
require) occupying different positions and carrying an identical
`(phash, dhash)` pair always end up together in one emitted
exact-match group, whatever their other fields. -/
theorem C7_exact_equality_grouping (l : List DBImage) (i j : Nat)
    (hij : i ≠ j) (hi : i < l.length) (hj : j < l.length)
    (hp : (l.getD i default).phash.isSome)
    (hd : (l.getD i default).dhash.isSome)
    (hpe : (l.getD i default).phash = (l.getD j default).phash)
    (hde : (l.getD i default).dhash = (l.getD j default).dhash) :
    ∃ g ∈ exact_duplicate_groups l,
      l.getD i default ∈ g ∧ l.getD j default ∈ g := by
  set r1 := l.getD i default with hr1
  set r2 := l.getD j default with hr2
  have helig : ∀ r : DBImage, r.phash = r1.phash → r.dhash = r1.dhash →
      (r.phash.isSome && r.dhash.isSome) = true := by
    intro r h1 h2
    rw [h1, h2]
    simp only [Bool.and_eq_true]
    exact ⟨hp, hd⟩
  have hkey : hash_key r2 = hash_key r1 := by
    unfold hash_key
    rw [hpe, hde]
  set k := hash_key r1 with hk
  set bucket := findBucket (hash_groups (eligible_images l)) k with hbucket
  have hbchar : bucket = l.filter
      (fun r => decide (hash_key r = k) && (r.phash.isSome && r.dhash.isSome)) := by
    rw [hbucket, hash_groups_findBucket]
    unfold eligible_images
    rw [List.filter_filter]
  have hpred1 : (fun r => decide (hash_key r = k) &&
      (r.phash.isSome && r.dhash.isSome)) r1 = true := by
    simp only [Bool.and_eq_true, decide_eq_true_eq]
    exact ⟨by trivial, by simpa [Bool.and_eq_true] using helig r1 rfl rfl⟩
  have hpred2 : (fun r => decide (hash_key r = k) &&
      (r.phash.isSome && r.dhash.isSome)) r2 = true := by
    simp only [Bool.and_eq_true, decide_eq_true_eq]
    refine ⟨hkey, ?_⟩
    simpa [Bool.and_eq_true] using helig r2 hpe.symm hde.symm
  have hmem1 : r1 ∈ bucket := by
    rw [hbchar]
    refine List.mem_filter.mpr ⟨?_, hpred1⟩
    rw [hr1, List.getD_eq_getElem l default hi]
    exact List.getElem_mem ..
  have hmem2 : r2 ∈ bucket := by
    rw [hbchar]
    refine List.mem_filter.mpr ⟨?_, hpred2⟩
    rw [hr2, List.getD_eq_getElem l default hj]
    exact List.getElem_mem ..
  have hlen2 : 2 ≤ bucket.length := by
    rw [hbchar, ← List.countP_eq_length_filter]
    rcases Nat.lt_or_ge i j with hlt | hge
    · exact countP_two_le _ l i j hlt hj hpred1 hpred2
    · have hlt : j < i := by omega
      exact countP_two_le _ l j i hlt hi hpred2 hpred1
  have hne : bucket ≠ [] := by
    intro hnil
    rw [hnil] at hmem1
    simp at hmem1
  have hin_map : bucket ∈ (hash_groups (eligible_images l)).map Prod.snd := by
    have := findBucket_mem (m := hash_groups (eligible_images l)) (k := k)
      (by rw [← hbucket]; exact hne)
    rw [← hbucket] at this
    exact List.mem_map_of_mem Prod.snd this
  refine ⟨bucket, ?_, hmem1, hmem2⟩
  unfold exact_duplicate_groups
  refine List.mem_filter.mpr ⟨hin_map, ?_⟩
  simp only [gt_iff_lt, decide_eq_true_eq]
  omega

theorem C7_witness :
    ∃ g ∈ exact_duplicate_groups
      [⟨1, "a.jpg", some "ab12", some "cd34", some 10, none⟩,
       ⟨2, "b.jpg", some "ab12", some "cd34", none, some 5⟩],
      (([⟨1, "a.jpg", some "ab12", some "cd34", some 10, none⟩,
         ⟨2, "b.jpg", some "ab12", some "cd34", none, some 5⟩] :
        List DBImage).getD 0 default) ∈ g ∧
      (([⟨1, "a.jpg", some "ab12", some "cd34", some 10, none⟩,
         ⟨2, "b.jpg", some "ab12", some "cd34", none, some 5⟩] :
        List DBImage).getD 1 default) ∈ g :=
  C7_exact_equality_grouping
    [⟨1, "a.jpg", some "ab12", some "cd34", some 10, none⟩,
     ⟨2, "b.jpg", some "ab12", some "cd34", none, some 5⟩]
    0 1 (by decide) (by decide) (by decide) (by decide) (by decide)
    (by decide) (by decide)

/-- C1 (amended): `find_duplicate_groups` is the greedy anchor-based
single pass — within one anchor scan the records merged are exactly the
not-yet-processed subsequent records within the threshold under *both*
hash families (the `requireBothHashes = true` rule; the
either-distance rule exists in the code only as the
`use_both_hashes = false` mode of `are_duplicates`); and on three
records A, B, C whose realizable pairwise distances are 7, 8 and 11
under threshold 10 (the distances 3, 4, 50 of the original claim are
impossible, see the counterexample), anchoring at A yields the single
group `{A, B, C}` although B–C alone exceeds the threshold. -/
theorem C1_greedy_anchor_cluster :
    (∀ (t : Nat) (img1 : ImageData) (js : List (Nat × ImageData))
       (processed : List Nat), (js.map Prod.fst).Nodup →
       (scanMerge t img1 js processed).1 =
         (js.filter (mergeCond t img1 processed)).map Prod.fst) ∧
    (∀ d1 p1 d2 p2 : String, ∀ T : Nat,
      (are_duplicates_core d1 p1 d2 p2 true T = true ↔
        calculate_similarity d1 d2 "dhash" ≤ T ∧
        calculate_similarity p1 p2 "phash" ≤ T) ∧
      (are_duplicates_core d1 p1 d2 p2 false T = true ↔
        calculate_similarity d1 d2 "dhash" ≤ T ∨
        calculate_similarity p1 p2 "phash" ≤ T)) ∧
    (calculate_similarity "0000000000000000" "fe00000000000000" "dhash" = 7 ∧
     calculate_similarity "0000000000000000" "c00000000000003f" "dhash" = 8 ∧
     calculate_similarity "fe00000000000000" "c00000000000003f" "dhash" = 11 ∧
     similarity_threshold_default < 11 ∧
     find_duplicate_groups
       [⟨some "0000000000000000", some "0000000000000000", none, none⟩,
        ⟨some "fe00000000000000", some "fe00000000000000", none, none⟩,
        ⟨some "c00000000000003f", some "c00000000000003f", none, none⟩]
       similarity_threshold_default = [[0, 1, 2]]) := by
  refine ⟨scanMerge_eq_filter, ?_, ?_⟩
  · intro d1 p1 d2 p2 T
    constructor
    · unfold are_duplicates_core
      rw [if_pos rfl]
      simp [Bool.and_eq_true, decide_eq_true_eq]
    · unfold are_duplicates_core
      rw [if_neg Bool.false_ne_true]
      simp [Bool.or_eq_true, decide_eq_true_eq]
  · exact ⟨by decide, by decide, by decide, by decide, by decide⟩

theorem C1_witness :
    ((scanMerge 10
        ⟨some "0000000000000000", some "0000000000000000", none, none⟩
        [(1, ⟨some "fe00000000000000", some "fe00000000000000", none, none⟩)]
        []).1 =
      ([(1, (⟨some "fe00000000000000", some "fe00000000000000", none,
        none⟩ : ImageData))].filter
        (mergeCond 10
          ⟨some "0000000000000000", some "0000000000000000", none, none⟩
          [])).map Prod.fst) ∧
    (are_duplicates_core "0000000000000000" "0000000000000000"
        "fe00000000000000" "fe00000000000000" false 10 = true ↔
      calculate_similarity "0000000000000000" "fe00000000000000" "dhash" ≤ 10 ∨
      calculate_similarity "0000000000000000" "fe00000000000000" "phash" ≤ 10) := by
  obtain ⟨h1, h2, h3⟩ := C1_greedy_anchor_cluster
  exact ⟨h1 10 _ _ [] (by decide),
    (h2 "0000000000000000" "0000000000000000" "fe00000000000000"
      "fe00000000000000" 10).2⟩

/-- C1 counterexample: the concrete instance of the claim is about
records that cannot exist — Hamming distance obeys the triangle
inequality, so no three records have pairwise primary-hash distances
3, 4 and 50 (the third distance can be at most 3 + 4 = 7).  The
clustering behaviour the scenario describes is exhibited instead at
the realizable distances 7, 8, 11 proved in the amended theorem. -/
theorem C1_counterexample :
    ¬ ∃ (r1 r2 r3 : ImageData),
      calcSimOpt r1.dhash r2.dhash "dhash" = 3 ∧
      calcSimOpt r1.dhash r3.dhash "dhash" = 4 ∧
      calcSimOpt r2.dhash r3.dhash "dhash" = 50 := by
  rintro ⟨r1, r2, r3, h12, h13, h23⟩
  cases e1 : r1.dhash with
  | none => rw [e1] at h12; simp [calcSimOpt] at h12
  | some s1 =>
  cases e2 : r2.dhash with
  | none => rw [e1, e2] at h12; simp [calcSimOpt] at h12
  | some s2 =>
  cases e3 : r3.dhash with
  | none => rw [e1, e3] at h13; simp [calcSimOpt] at h13
  | some s3 =>
  rw [e1, e2] at h12
  rw [e1, e3] at h13
  rw [e2, e3] at h23
  simp only [calcSimOpt] at h12 h13 h23
  obtain ⟨b1, b2, p1, p2, hl12, hd12⟩ :=
    sim_lt_comparable (le_of_eq h12) (show 3 < 999 by omega)
  obtain ⟨b1', b3, p1', p3, hl13, hd13⟩ :=
    sim_lt_comparable (le_of_eq h13) (show 4 < 999 by omega)
  rw [p1] at p1'
  obtain rfl : b1 = b1' := by injection p1'
  have hl23 : b2.length = b3.length := by rw [← hl12, ← hl13]
  have h23d : calculate_similarity s2 s3 "dhash" =
      hammingListDiff b2 b3 := by
    unfold calculate_similarity
    rw [p2, p3]
    dsimp only
    rw [if_pos hl23]
  have hh12 : hammingListDiff b1 b2 = 3 := by rw [← hd12]; exact h12
  have hh13 : hammingListDiff b1 b3 = 4 := by rw [← hd13]; exact h13
  have hh23 : hammingListDiff b2 b3 = 50 := by rw [← h23d]; exact h23
  have htri := hammingListDiff_triangle b2 b1 b3 hl12.symm hl13
  rw [hammingListDiff_symm b2 b1] at htri
  omega

/-- C5 (amended): threshold monotonicity holds for a single anchor
scan — with the anchor, candidate order and `processed` set fixed,
every record merged at threshold `t1` is still merged at any
`t2 ≥ t1`.  Globally it fails: raising the threshold lets an earlier
anchor absorb records first, which can separate a pair that a later
anchor had grouped (see the counterexample). -/
theorem C5_scan_monotone (t1 t2 : Nat) (hle : t1 ≤ t2)
    (img1 : ImageData) (js : List (Nat × ImageData))
    (processed : List Nat) (hnd : (js.map Prod.fst).Nodup) :
    ∀ j ∈ (scanMerge t1 img1 js processed).1,
      j ∈ (scanMerge t2 img1 js processed).1 := by
  intro j hj
  rw [scanMerge_eq_filter t1 img1 js processed hnd] at hj
  rw [scanMerge_eq_filter t2 img1 js processed hnd]
  obtain ⟨⟨j0, img2⟩, hmem, hfst⟩ := List.mem_map.mp hj
  refine List.mem_map.mpr ⟨(j0, img2), ?_, hfst⟩
  obtain ⟨hin, hcond⟩ := List.mem_filter.mp hmem
  refine List.mem_filter.mpr ⟨hin, ?_⟩
  unfold mergeCond at hcond ⊢
  simp only [Bool.and_eq_true, decide_eq_true_eq] at hcond ⊢
  exact ⟨⟨hcond.1.1, by omega⟩, by omega⟩

theorem C5_witness :
    5 ≤ 11 ∧
    (1 ∈ (scanMerge 5
        ⟨some "ffe0000000000000", some "ffe0000000000000", none, none⟩
        [(1, ⟨some "ff80000000000007", some "ff80000000000007", none,
          none⟩)] []).1 →
      1 ∈ (scanMerge 11
        ⟨some "ffe0000000000000", some "ffe0000000000000", none, none⟩
        [(1, ⟨some "ff80000000000007", some "ff80000000000007", none,
          none⟩)] []).1) ∧
    1 ∈ (scanMerge 11
        ⟨some "ffe0000000000000", some "ffe0000000000000", none, none⟩
        [(1, ⟨some "ff80000000000007", some "ff80000000000007", none,
          none⟩)] []).1 :=
  ⟨by omega,
   C5_scan_monotone 5 11 (by omega)
     ⟨some "ffe0000000000000", some "ffe0000000000000", none, none⟩
     [(1, ⟨some "ff80000000000007", some "ff80000000000007", none, none⟩)]
     [] (by decide) 1,
   C5_scan_monotone 5 11 (by omega)
     ⟨some "ffe0000000000000", some "ffe0000000000000", none, none⟩
     [(1, ⟨some "ff80000000000007", some "ff80000000000007", none, none⟩)]
     [] (by decide) 1 (by decide)⟩

/-- C5 counterexample: three records with pairwise distances
A–B = 11, A–C = 12, B–C = 5 (same code used for both hash families).
At threshold 5 the pass yields the group `{B, C}`; at the larger
threshold 11 the anchor A absorbs B first, so the pass yields `{A, B}`
and the pair B, C — grouped together at the smaller threshold — is
separated.  Raising the threshold split an existing group. -/
theorem C5_counterexample :
    (5 : Nat) ≤ 11 ∧
    find_duplicate_groups
      [⟨some "0000000000000000", some "0000000000000000", none, none⟩,
       ⟨some "ffe0000000000000", some "ffe0000000000000", none, none⟩,
       ⟨some "ff80000000000007", some "ff80000000000007", none, none⟩]
      5 = [[1, 2]] ∧
    find_duplicate_groups
      [⟨some "0000000000000000", some "0000000000000000", none, none⟩,
       ⟨some "ffe0000000000000", some "ffe0000000000000", none, none⟩,
       ⟨some "ff80000000000007", some "ff80000000000007", none, none⟩]
      11 = [[0, 1]] ∧
    (∃ g ∈ find_duplicate_groups
      [⟨some "0000000000000000", some "0000000000000000", none, none⟩,
       ⟨some "ffe0000000000000", some "ffe0000000000000", none, none⟩,
       ⟨some "ff80000000000007", some "ff80000000000007", none, none⟩]
      5, 1 ∈ g ∧ 2 ∈ g) ∧
    ¬ (∃ g ∈ find_duplicate_groups
      [⟨some "0000000000000000", some "0000000000000000", none, none⟩,
       ⟨some "ffe0000000000000", some "ffe0000000000000", none, none⟩,
       ⟨some "ff80000000000007", some "ff80000000000007", none, none⟩]
      11, 1 ∈ g ∧ 2 ∈ g) := by
  refine ⟨by omega, by decide, by decide, by decide, by decide⟩

/-- C2: on records that all carry a capture time,
`find_burst_sequences` is exactly the specification's walk — sort
ascending by capture time, append a record when the gap is within the
window and the primary-hash distance to the previous member is within
30, flush (emitting only sequences of ≥ 2 members) and reseed when the
gap is small but the visual distance exceeds 30; in particular, two
records 2 seconds apart at visual distance 80 produce no burst
sequence. -/
theorem C2_burst_walk_spec :
    (∀ (image_data : List ImageData) (w : Int),
      (∀ r ∈ image_data, r.capture_time.isSome) →
      find_burst_sequences image_data w =
        .ok (specFindBurstSequences image_data w)) ∧
    (calculate_similarity
      "0000000000000000000000000000000000000000000000000000000000000000"
      "ffffffffffffffffffff00000000000000000000000000000000000000000000"
      "dhash" = 80 ∧
     burst_visual_threshold < 80 ∧
     find_burst_sequences
       [⟨some "0000000000000000000000000000000000000000000000000000000000000000",
         some "0000000000000000000000000000000000000000000000000000000000000000",
         some 0, none⟩,
        ⟨some "ffffffffffffffffffff00000000000000000000000000000000000000000000",
         some "ffffffffffffffffffff00000000000000000000000000000000000000000000",
         some 2, none⟩] 5 = .ok []) :=
  ⟨fun image_data w h => find_burst_sequences_eq_spec image_data w h,
   by decide, by decide, by decide⟩

theorem C2_witness :
    find_burst_sequences
      [⟨some "0000000000000000000000000000000000000000000000000000000000000000",
        some "0000000000000000000000000000000000000000000000000000000000000000",
        some 0, none⟩,
       ⟨some "ffffffffffffffffffff00000000000000000000000000000000000000000000",
        some "ffffffffffffffffffff00000000000000000000000000000000000000000000",
        some 2, none⟩] 5 =
      .ok (specFindBurstSequences
        [⟨some "0000000000000000000000000000000000000000000000000000000000000000",
          some "0000000000000000000000000000000000000000000000000000000000000000",
          some 0, none⟩,
         ⟨some "ffffffffffffffffffff00000000000000000000000000000000000000000000",
          some "ffffffffffffffffffff00000000000000000000000000000000000000000000",
          some 2, none⟩] 5) := by
  obtain ⟨h1, -⟩ := C2_burst_walk_spec
  exact h1 _ 5 (by decide)

/-- C3 (amended): the representative selection that `detect_duplicates`
actually performs sorts a group by `(-(overall_score or 0), filename)`
ascending and takes the head: the representative is a member that is
minimal in that order — maximal score with `None` counted as 0,
filename ascending as tie-break — so a group with scores
`[80, None, 95]` yields the record scoring 95, and a `None`-scored
record is never chosen over any record with a positive score (it can
still beat a record scoring exactly 0 on the filename tie-break).
`select_best_from_group` itself implements none of this: it raises
`TypeError` on a `None` score (see the counterexample). -/
theorem C3_representative_selection :
    (∀ (g : List DBImage) (b : DBImage), best_image g = some b →
      b ∈ g ∧ ∀ x ∈ g, bestLe b x = true) ∧
    (∀ (g : List DBImage) (b : DBImage), best_image g = some b →
      b.overall_score = none → ∀ x ∈ g, x.overall_score.getD 0 = 0) ∧
    best_image
      [⟨1, "a.jpg", some "aa", some "bb", some 80, none⟩,
       ⟨2, "b.jpg", some "aa", some "bb", none, none⟩,
       ⟨3, "c.jpg", some "aa", some "bb", some 95, none⟩] =
      some ⟨3, "c.jpg", some "aa", some "bb", some 95, none⟩ := by
  have hmin : ∀ (g : List DBImage) (b : DBImage), best_image g = some b →
      b ∈ g ∧ ∀ x ∈ g, bestLe b x = true := by
    intro g b hb
    exact sortBy_head_min bestLe bestLe_total bestLe_trans g b hb
  refine ⟨hmin, ?_, by decide⟩
  intro g b hb hnone x hx
  have hle := (hmin g b hb).2 x hx
  unfold bestLe at hle
  have hsb : score_key b = 0 := by
    unfold score_key
    rw [hnone]
    rfl
  by_cases heq : score_key b = score_key x
  · rw [hsb] at heq
    unfold score_key at heq
    omega
  · rw [if_neg heq] at hle
    simp only [decide_eq_true_eq] at hle
    rw [hsb] at hle
    unfold score_key at hle
    omega

theorem C3_witness :
    ((⟨3, "c.jpg", some "aa", some "bb", some 95, none⟩ : DBImage) ∈
      ([⟨1, "a.jpg", some "aa", some "bb", some 80, none⟩,
        ⟨2, "b.jpg", some "aa", some "bb", none, none⟩,
        ⟨3, "c.jpg", some "aa", some "bb", some 95, none⟩] :
        List DBImage) ∧
     ∀ x ∈ ([⟨1, "a.jpg", some "aa", some "bb", some 80, none⟩,
        ⟨2, "b.jpg", some "aa", some "bb", none, none⟩,
        ⟨3, "c.jpg", some "aa", some "bb", some 95, none⟩] :
        List DBImage),
       bestLe ⟨3, "c.jpg", some "aa", some "bb", some 95, none⟩ x = true) ∧
    (∀ x ∈ ([⟨4, "d.jpg", some "aa", some "bb", none, none⟩] :
        List DBImage), x.overall_score.getD 0 = 0) := by
  obtain ⟨h1, h2, h3⟩ := C3_representative_selection
  exact ⟨h1 _ _ h3,
    h2 [⟨4, "d.jpg", some "aa", some "bb", none, none⟩]
      ⟨4, "d.jpg", some "aa", some "bb", none, none⟩ (by decide) rfl⟩

/-- C3 counterexample: on the claim's own scenario — a group whose
scores are `[80, None, 95]` — `select_best_from_group` does not return
the record scoring 95: the comparison `None > 80` raises `TypeError`
and the call fails. -/
theorem C3_counterexample :
    select_best_from_group
      [⟨some "aa", some "aa", none, some 80⟩,
       ⟨some "aa", some "aa", none, none⟩,
       ⟨some "aa", some "aa", none, some 95⟩] [0, 1, 2] =
      .error .typeError := by decide

/-- C9: zero eligible records indeed yield empty results from every
detector, and a hashless record cannot enter a near-duplicate group —
but the burst detector does *not* exclude records lacking a capture
time: with one timed and one untimed record the sort key mixes a
`datetime` with `None` and Python's `sorted` raises `TypeError`, so the
pass aborts instead of completing on the eligible records, contrary to
the claim (and to the intent of the function's own
`if not img.get('capture_time'): continue` exclusion). -/
theorem C9_partial_data_crash :
    find_duplicate_groups [] similarity_threshold_default = [] ∧
    find_burst_sequences [] 5 = .ok [] ∧
    exact_duplicate_groups [] = [] ∧
    find_burst_sequences
      [⟨some "0000000000000000", some "0000000000000000", some 0, none⟩,
       ⟨some "0000000000000000", some "0000000000000000", none, none⟩] 5 =
      .error .typeError := by
  refine ⟨by decide, by decide, by decide, by decide⟩
